import Mathlib

/-!
A verification development for `mm`, a minimal finite-state machine in Go

The Go package `mm` (file `mm.go`) keeps one current state, a registry of
events (each a map from source state to destination state), per-state
callback lists and one catch-all callback.

Embedding:

* A Go `map[string]V` is a `GoMap V`: its key/value pairs in the order a
  `range` loop visits them, with pairwise distinct keys.  Every theorem
  quantifies over all such values, hence over every iteration order.
  Machines are those with allocated maps, as `New` builds them.
* A Go `error` result is `Option Error`, where `none` is `nil`.
* A `Callback` is a non-nil Go func value, named by an identifier.  What a
  call of it does is given by a `Behaviour`: from the argument, the machine
  it may have captured and the rest of the program state (`Env`) to the
  machine and program state when it returns.  A callback is a closure and
  may call the methods of the machine, so a behaviour may change the
  machine.  Callbacks are taken to return normally.  The field `callbackAny` is `none` when the Go field is `nil`.
* `Trigger` returns, next to its error result, the machine and program
  state after the call and the list of callback invocations it made, each
  with the argument passed and the value of `State()` at that moment.
* A program that drives the machine is a list of calls (`Op`), performed in
  turn by `performAll`.
* Where a property is about the calls that callbacks make on the machine,
  the body of a callback is a `Script`: step by step it picks, from what the
  machine shows and the program state, its next call on the machine or
  returns.  `scripted` is the `Behaviour` of such bodies, and `performLogged`
  performs calls as `perform` does while recording every `When` call that
  returned nil, whether the program or a callback body made it.
-/

namespace mm

/-! ## Go maps with string keys -/

/-- Value stored under key `k` in a list of key/value pairs, if any. -/
def lookup {V : Type} (k : String) : List (String × V) → Option V
  | [] => none
  | (k', v) :: rest => if k' = k then some v else lookup k rest

/-- Store `v` under key `k`: overwrite the pair with key `k` where there is
one, add a pair otherwise. -/
def assign {V : Type} (k : String) (v : V) : List (String × V) → List (String × V)
  | [] => [(k, v)]
  | (k', v') :: rest => if k' = k then (k, v) :: rest else (k', v') :: assign k v rest

theorem mem_keys_assign {V : Type} (k : String) (v : V) (l : List (String × V)) (x : String) :
    x ∈ (assign k v l).map Prod.fst ↔ x = k ∨ x ∈ l.map Prod.fst := by
  induction l with
  | nil => simp [assign]
  | cons p rest ih =>
    obtain ⟨k', v'⟩ := p
    by_cases h : k' = k
    · subst h
      simp [assign]
    · simp only [assign, h, if_false, List.map_cons, List.mem_cons, ih]
      tauto

theorem nodup_keys_assign {V : Type} (k : String) (v : V) (l : List (String × V))
    (h : (l.map Prod.fst).Nodup) : ((assign k v l).map Prod.fst).Nodup := by
  induction l with
  | nil => simp [assign]
  | cons p rest ih =>
    obtain ⟨k', v'⟩ := p
    rw [List.map_cons, List.nodup_cons] at h
    by_cases hk : k' = k
    · subst hk
      simp only [assign, if_true, List.map_cons, List.nodup_cons]
      exact h
    · simp only [assign, if_neg hk]
      rw [List.map_cons, List.nodup_cons, mem_keys_assign]
      refine ⟨?_, ih h.2⟩
      rintro (h1 | h1)
      · exact hk h1
      · exact h.1 h1

/-- A Go map with string keys: its pairs in iteration order, keys distinct. -/
structure GoMap (V : Type) where
  entries : List (String × V)
  nodup : (entries.map Prod.fst).Nodup

namespace GoMap

theorem ext_entries {V : Type} {a b : GoMap V} (h : a.entries = b.entries) : a = b := by
  cases a; cases b; cases h; rfl

instance {V : Type} [DecidableEq V] : DecidableEq (GoMap V) := fun a b =>
  if h : a.entries = b.entries then isTrue (ext_entries h)
  else isFalse (fun e => h (congrArg GoMap.entries e))

/-- The map `make(map[string]V)`. -/
def empty {V : Type} : GoMap V := ⟨[], List.nodup_nil⟩

/-- The two-valued read `v, ok := m[k]`: `some v` when `ok`. -/
def get? {V : Type} (m : GoMap V) (k : String) : Option V := lookup k m.entries

/-- The assignment `m[k] = v`. -/
def set {V : Type} (m : GoMap V) (k : String) (v : V) : GoMap V :=
  ⟨assign k v m.entries, nodup_keys_assign k v m.entries m.nodup⟩

/-- The keys in iteration order. -/
def keys {V : Type} (m : GoMap V) : List String := m.entries.map Prod.fst

end GoMap

/-! ## The machine -/

/-- The Go type `Transitions = map[string]string`, from source state to
destination state.  A nil map reads as the empty map. -/
abbrev Transitions := GoMap String

/-- A Go func value of type `Callback = func(string)`. -/
structure Callback where
  id : Nat
  deriving DecidableEq, Repr

/-- The struct `Machine`. -/
structure Machine where
  state : String
  events : GoMap Transitions
  callbacks : GoMap (List Callback)
  callbackAny : Option Callback
  deriving DecidableEq

/-- The package's error values. -/
inductive Error where
  | ErrEventExists
  | ErrInvalidEvent
  | ErrInvalidState
  deriving DecidableEq, Repr

/-- What calling a callback does: given the argument, the machine and the
rest of the program state, the machine and program state on return. -/
abbrev Behaviour (Env : Type) := Callback → String → Machine → Env → Machine × Env

/-- One callback invocation made by `Trigger`. -/
structure Invocation where
  cb : Callback
  arg : String
  observed : String
  deriving DecidableEq, Repr

/-- Go `New`. -/
def New (state : String) : Machine :=
  { state := state, events := GoMap.empty, callbacks := GoMap.empty, callbackAny := none }

/-- Go `(*Machine).State`. -/
def State (m : Machine) : String := m.state

/-- Go `(*Machine).When`: the error returned and the machine afterwards. -/
def When (m : Machine) (event : String) (transitions : Transitions) : Option Error × Machine :=
  match m.events.get? event with
  | some _ => (some Error.ErrEventExists, m)
  | none => (none, { m with events := m.events.set event transitions })

/-- Go `(*Machine).Events`. -/
def Events (m : Machine) : List String :=
  m.events.entries.foldl (fun events p => events ++ [p.1]) []

/-- Go `(*Machine).TriggerableEvents`. -/
def TriggerableEvents (m : Machine) : List String :=
  m.events.entries.foldl
    (fun events p =>
      match p.2.get? m.state with
      | some _ => events ++ [p.1]
      | none => events)
    []

/-- The body of the inner loop of `States` for one key `state`. -/
def statesStep (acc : List String × GoMap Bool) (state : String) : List String × GoMap Bool :=
  if (acc.2.get? state).getD false then acc
  else (acc.1 ++ [state], acc.2.set state true)

/-- Go `(*Machine).States`. -/
def States (m : Machine) : List String :=
  (m.events.entries.foldl
    (fun acc p => p.2.keys.foldl statesStep acc)
    ([m.state], (GoMap.empty : GoMap Bool).set m.state true)).1

/-- The state of a run of `Trigger` while it invokes callbacks. -/
structure Run (Env : Type) where
  machine : Machine
  env : Env
  calls : List Invocation

/-- The call `cb(event)` inside `Trigger`. -/
def invoke {Env : Type} (sem : Behaviour Env) (event : String) (r : Run Env) (cb : Callback) :
    Run Env :=
  let out := sem cb event r.machine r.env
  { machine := out.1, env := out.2,
    calls := r.calls ++ [{ cb := cb, arg := event, observed := State r.machine }] }

/-- Lines 94 to 98 of `mm.go`: the callbacks registered for `state` are
read once and called in turn. -/
def notifyState {Env : Type} (sem : Behaviour Env) (event state : String) (r : Run Env) :
    Run Env :=
  match r.machine.callbacks.get? state with
  | some cbs => cbs.foldl (invoke sem event) r
  | none => r

/-- Lines 100 to 102 of `mm.go`: the catch-all callback, read at that
point, is called when it is not nil. -/
def notifyAny {Env : Type} (sem : Behaviour Env) (event : String) (r : Run Env) : Run Env :=
  match r.machine.callbackAny with
  | some cb => invoke sem event r cb
  | none => r

/-- What a call of `Trigger` yields. -/
structure Outcome (Env : Type) where
  err : Option Error
  machine : Machine
  env : Env
  calls : List Invocation

/-- Go `(*Machine).Trigger`. -/
def Trigger {Env : Type} (sem : Behaviour Env) (m : Machine) (event : String) (env : Env) :
    Outcome Env :=
  match m.events.get? event with
  | none => { err := some Error.ErrInvalidEvent, machine := m, env := env, calls := [] }
  | some tr =>
    match tr.get? m.state with
    | none => { err := some Error.ErrInvalidState, machine := m, env := env, calls := [] }
    | some state =>
      let r0 : Run Env := { machine := { m with state := state }, env := env, calls := [] }
      let r2 := notifyAny sem event (notifyState sem event state r0)
      { err := none, machine := r2.machine, env := r2.env, calls := r2.calls }

/-- Go `(*Machine).On`. -/
def On (m : Machine) (event : String) (fn : Callback) : Machine :=
  { m with callbacks := m.callbacks.set event ((m.callbacks.get? event).getD [] ++ [fn]) }

/-- Go `(*Machine).OnAny`; `none` is a nil func. -/
def OnAny (m : Machine) (fn : Option Callback) : Machine :=
  { m with callbackAny := fn }

/-! ## The machine of the test suite -/

/-- A Go map literal: the pairs assigned in turn to an empty map. -/
def GoMap.ofList {V : Type} (l : List (String × V)) : GoMap V :=
  l.foldl (fun m p => m.set p.1 p.2) GoMap.empty

/-- The test helper `newMachine`. -/
def newMachine : Machine :=
  let m := New "pending"
  let m := (When m "confirm" (GoMap.ofList [("pending", "confirmed")])).2
  let m := (When m "ignore" (GoMap.ofList [("pending", "ignored")])).2
  let m := (When m "reset" (GoMap.ofList [("confirmed", "pending"), ("ignored", "pending")])).2
  m

/-- Callbacks that do nothing. -/
def idle : Behaviour Unit := fun _ _ m env => (m, env)

/-- The machine of the test suite after `Trigger("confirm")`. -/
def afterConfirm : Machine := (Trigger idle newMachine "confirm" ()).machine

/-- The machine `afterConfirm` after `Trigger("reset")`. -/
def afterReset : Machine := (Trigger idle afterConfirm "reset" ()).machine

/-- The machine `afterReset` after `Trigger("ignore")`. -/
def afterIgnore : Machine := (Trigger idle afterReset "ignore" ()).machine

/-- The machine of the test suite with a callback on `"pending"` and a
catch-all callback. -/
def watched : Machine := OnAny (On newMachine "pending" ⟨1⟩) (some ⟨2⟩)

/-- The machine `watched` after `Trigger("confirm")`. -/
def afterConfirmWatched : Machine := (Trigger idle watched "confirm" ()).machine

/-- A callback that calls `m.Trigger("reset")` on the machine it captured
(no callback is registered where the machines below arrive by it); every
other callback does nothing. -/
def reentrant : Behaviour Unit := fun c _ m env =>
  if c.id = 1 then ((Trigger idle m "reset" ()).machine, env) else (m, env)

/-- A callback that calls `m.OnAny` with the callback 3 on the machine it
captured; every other callback does nothing. -/
def swapsAny : Behaviour Unit := fun c _ m env =>
  if c.id = 1 then (OnAny m (some ⟨3⟩), env) else (m, env)

/-- The machine of the test suite with the callback 1 on "confirmed" and the
catch-all callback 2. -/
def guarded : Machine := OnAny (On newMachine "confirmed" ⟨1⟩) (some ⟨2⟩)

/-- The machine of the test suite with the callbacks 1 and 2 on "confirmed",
registered in that order. -/
def chained : Machine := On (On newMachine "confirmed" ⟨1⟩) "confirmed" ⟨2⟩

/-- The machine built by the test `TestMachine_When`: "confirm" registered on
a fresh machine at "pending". -/
def confirmOnly : Machine :=
  (When (New "pending") "confirm" (GoMap.ofList [("pending", "confirmed")])).2

/-! ## Vocabulary of the specification -/

/-- Event `e` is registered, that is, a key of the transition registry. -/
def Registered (m : Machine) (e : String) : Prop := e ∈ m.events.keys

/-- Event `e` is registered with the mapping `tr`. -/
def RegisteredAs (m : Machine) (e : String) (tr : Transitions) : Prop :=
  (e, tr) ∈ m.events.entries

/-- The mapping `tr` sends source state `s` to destination state `d`. -/
def Sends (tr : Transitions) (s d : String) : Prop := (s, d) ∈ tr.entries

/-- The mapping `tr` has an entry keyed by the state `s`. -/
def HasSource (tr : Transitions) (s : String) : Prop := s ∈ tr.keys

instance (m : Machine) (e : String) : Decidable (Registered m e) :=
  inferInstanceAs (Decidable (e ∈ m.events.keys))

instance (m : Machine) (e : String) (tr : Transitions) : Decidable (RegisteredAs m e tr) :=
  inferInstanceAs (Decidable ((e, tr) ∈ m.events.entries))

instance (tr : Transitions) (s d : String) : Decidable (Sends tr s d) :=
  inferInstanceAs (Decidable ((s, d) ∈ tr.entries))

instance (tr : Transitions) (s : String) : Decidable (HasSource tr s) :=
  inferInstanceAs (Decidable (s ∈ tr.keys))

/-- Calls of the callback `c` return with the machine as they found it. -/
def Inert {Env : Type} (sem : Behaviour Env) (c : Callback) : Prop :=
  ∀ (ev : String) (m : Machine) (env : Env), (sem c ev m env).1 = m

/-- Calls of the callback `c` leave the component `f` of the machine as they
found it. -/
def Keeps {Env α : Type} (sem : Behaviour Env) (f : Machine → α) (c : Callback) : Prop :=
  ∀ (ev : String) (m : Machine) (env : Env), f (sem c ev m env).1 = f m

/-- The callbacks registered with `On` for the state `d`, in registration
order. -/
def callbacksFor (m : Machine) (d : String) : List Callback :=
  (m.callbacks.get? d).getD []

/-- One call made on the machine by the program that owns it. -/
inductive Op where
  | When (event : String) (transitions : Transitions)
  | On (state : String) (fn : Callback)
  | OnAny (fn : Option Callback)
  | Trigger (event : String)
  deriving DecidableEq

/-- The machine and the program state after the call `op`. -/
def perform {Env : Type} (sem : Behaviour Env) (w : Machine × Env) : Op → Machine × Env
  | Op.When event transitions => ((When w.1 event transitions).2, w.2)
  | Op.On state fn => (On w.1 state fn, w.2)
  | Op.OnAny fn => (OnAny w.1 fn, w.2)
  | Op.Trigger event => ((Trigger sem w.1 event w.2).machine, (Trigger sem w.1 event w.2).env)

/-- The machine and the program state after the calls `ops`, made in turn. -/
def performAll {Env : Type} (sem : Behaviour Env) (w : Machine × Env) (ops : List Op) :
    Machine × Env :=
  ops.foldl (perform sem) w

/-- The calls that build the machine of the test suite, followed by a second
registration of "confirm". -/
def setupOps : List Op :=
  [Op.When "confirm" (GoMap.ofList [("pending", "confirmed")]),
   Op.When "ignore" (GoMap.ofList [("pending", "ignored")]),
   Op.When "reset" (GoMap.ofList [("confirmed", "pending"), ("ignored", "pending")]),
   Op.When "confirm" (GoMap.ofList [("foo", "bar")])]

/-- The machine of the test suite with the callbacks 1, 2 and 3 registered on
"ignored", in that order. -/
def tripled : Machine := On (On (On newMachine "ignored" ⟨1⟩) "ignored" ⟨2⟩) "ignored" ⟨3⟩

/-- The machine of the test suite with the callback 1 on "confirmed", after
`OnAny` with that same callback 1 and then `OnAny` with the callback 2. -/
def aliased : Machine :=
  OnAny (OnAny (On newMachine "confirmed" ⟨1⟩) (some ⟨1⟩)) (some ⟨2⟩)

/-- The machine of the test suite with the callback 1 on "confirmed", after
`OnAny` with the callback 3 and then `OnAny` with the callback 2. -/
def replaced : Machine :=
  OnAny (OnAny (On newMachine "confirmed" ⟨1⟩) (some ⟨3⟩)) (some ⟨2⟩)

/-- The calls of `setupOps`, then a callback on "confirmed", a catch-all
callback and `Trigger("confirm")`. -/
def scenarioOps : List Op :=
  setupOps ++ [Op.On "confirmed" ⟨1⟩, Op.OnAny (some ⟨2⟩), Op.Trigger "confirm"]

/-- The body of a callback as a program over the methods of the machine: from
the callback, its argument, the machine as its methods show it and the
program state, the next call the body makes on the machine (`none` when the
body returns) and the program state at that point. -/
abbrev Script (Env : Type) := Callback → String → Machine → Env → Option Op × Env

/-- The call `op` as `perform` makes it, on a program state that carries a
record of the events of the `When` calls that returned nil so far. -/
def performLogged {Env : Type} (sem : Behaviour (Env × List String))
    (w : Machine × (Env × List String)) : Op → Machine × (Env × List String)
  | Op.When event transitions =>
    ((When w.1 event transitions).2,
      (w.2.1, if (When w.1 event transitions).1 = none then w.2.2 ++ [event] else w.2.2))
  | Op.On state fn => (On w.1 state fn, w.2)
  | Op.OnAny fn => (OnAny w.1 fn, w.2)
  | Op.Trigger event => ((Trigger sem w.1 event w.2).machine, (Trigger sem w.1 event w.2).env)

/-- The calls `ops` made in turn by `performLogged`. -/
def performAllLogged {Env : Type} (sem : Behaviour (Env × List String))
    (w : Machine × (Env × List String)) (ops : List Op) : Machine × (Env × List String) :=
  ops.foldl (performLogged sem) w

/-- The body of the callback `c` run on the argument `ev` until it returns,
for at most `steps` calls; the callbacks its own `Trigger` calls invoke
behave as `sem`. -/
def runBody {Env : Type} (script : Script Env) (sem : Behaviour (Env × List String))
    (c : Callback) (ev : String) :
    Nat → Machine × (Env × List String) → Machine × (Env × List String)
  | 0, w => w
  | steps + 1, w =>
    match (script c ev w.1 w.2.1).1 with
    | none => (w.1, ((script c ev w.1 w.2.1).2, w.2.2))
    | some op =>
      runBody script sem c ev steps
        (performLogged sem (w.1, ((script c ev w.1 w.2.1).2, w.2.2)) op)

/-- The behaviour of callbacks whose bodies are given by `script`, with
`Trigger` calls nested at most `n` deep and at most `n` calls a body.  A run
of the Go program that returns is this behaviour at every large enough `n`. -/
def scripted {Env : Type} (script : Script Env) : Nat → Behaviour (Env × List String)
  | 0 => fun _ _ m x => (m, x)
  | n + 1 => fun c ev m x => runBody script (scripted script n) c ev (n + 1) (m, x)

/-- The record of successful registrations agrees with the registry. -/
def Logged {Env : Type} (m : Machine) (x : Env × List String) : Prop :=
  m.events.keys = x.2

/-- A callback body that calls `m.When("archive", ...)` once (the program
state counts its calls) when it is the body of callback 1, and returns at
once otherwise. -/
def archiver : Script Nat := fun c _ _ k =>
  if c.id = 1 ∧ k = 0 then
    (some (Op.When "archive" (GoMap.ofList [("confirmed", "archived")])), 1)
  else (none, k)

/-- The calls of `setupOps`, then the callback 1 on "confirmed" and
`Trigger("confirm")`. -/
def archiveOps : List Op :=
  setupOps ++ [Op.On "confirmed" ⟨1⟩, Op.Trigger "confirm"]

/-- The bookkeeping of `States`: the list built so far has no duplicates and
the map `found` holds `true` exactly for its elements. -/
def Tracks (acc : List String × GoMap Bool) : Prop :=
  acc.1.Nodup ∧ ∀ s, (acc.2.get? s).getD false = true ↔ s ∈ acc.1

/-- A machine with one event, whose destination "published" is the source of
no transition. -/
def oneWay : Machine :=
  (When (New "draft") "publish" (GoMap.ofList [("draft", "published")])).2

/-! ## Lemmas on maps -/

theorem lookup_eq_none_iff {V : Type} (k : String) (l : List (String × V)) :
    lookup k l = none ↔ k ∉ l.map Prod.fst := by
  induction l with
  | nil => simp [lookup]
  | cons p rest ih =>
    obtain ⟨k', v'⟩ := p
    by_cases h : k' = k
    · simp [lookup, h]
    · have h' : ¬ k = k' := fun e => h e.symm
      simp [lookup, h, h', ih]

theorem lookup_eq_some_iff {V : Type} (k : String) (v : V) (l : List (String × V))
    (hl : (l.map Prod.fst).Nodup) : lookup k l = some v ↔ (k, v) ∈ l := by
  induction l with
  | nil => simp [lookup]
  | cons p rest ih =>
    obtain ⟨k', v'⟩ := p
    rw [List.map_cons, List.nodup_cons] at hl
    by_cases h : k' = k
    · subst h
      have hnot : (k', v) ∉ rest := fun hm => hl.1 (List.mem_map.mpr ⟨(k', v), hm, rfl⟩)
      simp only [lookup, if_true, List.mem_cons, Option.some.injEq, Prod.mk.injEq, true_and]
      constructor
      · intro e; exact Or.inl e.symm
      · rintro (e | e)
        · exact e.symm
        · exact absurd e hnot
    · have h' : ¬ k = k' := fun e => h e.symm
      simp only [lookup, if_neg h, List.mem_cons, Prod.mk.injEq, h', false_and, false_or]
      exact ih hl.2

theorem GoMap.get?_eq_some_iff {V : Type} (m : GoMap V) (k : String) (v : V) :
    m.get? k = some v ↔ (k, v) ∈ m.entries :=
  lookup_eq_some_iff k v m.entries m.nodup

theorem GoMap.get?_eq_none_iff {V : Type} (m : GoMap V) (k : String) :
    m.get? k = none ↔ k ∉ m.keys :=
  lookup_eq_none_iff k m.entries

theorem GoMap.mem_keys_iff {V : Type} (m : GoMap V) (k : String) :
    k ∈ m.keys ↔ ∃ v, (k, v) ∈ m.entries := by
  unfold GoMap.keys
  constructor
  · intro h
    obtain ⟨p, hp, rfl⟩ := List.mem_map.mp h
    exact ⟨p.2, hp⟩
  · rintro ⟨v, hv⟩
    exact List.mem_map_of_mem Prod.fst hv

theorem assign_of_not_mem {V : Type} (k : String) (v : V) (l : List (String × V))
    (h : k ∉ l.map Prod.fst) : assign k v l = l ++ [(k, v)] := by
  induction l with
  | nil => rfl
  | cons p rest ih =>
    obtain ⟨k', v'⟩ := p
    rw [List.map_cons, List.mem_cons, not_or] at h
    have hk : ¬ k' = k := fun e => h.1 e.symm
    simp only [assign, if_neg hk, ih h.2, List.cons_append]

theorem GoMap.get?_isSome_iff {V : Type} (m : GoMap V) (k : String) :
    (m.get? k).isSome = true ↔ k ∈ m.keys := by
  cases h : m.get? k with
  | none =>
    have := (GoMap.get?_eq_none_iff m k).mp h
    simp [this]
  | some v =>
    have := (GoMap.mem_keys_iff m k).mpr ⟨v, (GoMap.get?_eq_some_iff m k v).mp h⟩
    simp [this]

theorem foldl_triggerable (s : String) (l : List (String × Transitions)) (acc : List String) :
    l.foldl
      (fun events p =>
        match p.2.get? s with
        | some _ => events ++ [p.1]
        | none => events)
      acc
    = acc ++ (l.filter (fun p => (p.2.get? s).isSome)).map Prod.fst := by
  induction l generalizing acc with
  | nil => simp
  | cons p rest ih =>
    rw [List.foldl_cons, ih]
    cases h : p.2.get? s <;> simp [List.filter_cons, h]

theorem TriggerableEvents_eq (m : Machine) :
    TriggerableEvents m
      = (m.events.entries.filter (fun p => (p.2.get? m.state).isSome)).map Prod.fst := by
  unfold TriggerableEvents
  rw [foldl_triggerable]
  rfl

theorem lookup_assign_self {V : Type} (k : String) (v : V) (l : List (String × V)) :
    lookup k (assign k v l) = some v := by
  induction l with
  | nil => simp [assign, lookup]
  | cons p rest ih =>
    obtain ⟨k', v'⟩ := p
    by_cases h : k' = k
    · simp [assign, lookup, h]
    · simp [assign, lookup, h, ih]

theorem lookup_assign_of_ne {V : Type} (k k' : String) (v : V) (l : List (String × V))
    (hne : k' ≠ k) : lookup k' (assign k v l) = lookup k' l := by
  have hne' : ¬ k = k' := fun e => hne e.symm
  induction l with
  | nil => simp [assign, lookup, hne']
  | cons p rest ih =>
    obtain ⟨k'', v''⟩ := p
    by_cases h : k'' = k
    · subst h
      simp [assign, lookup, hne']
    · by_cases h2 : k'' = k'
      · simp only [assign, if_neg h, lookup, if_pos h2]
      · simp only [assign, if_neg h, lookup, if_neg h2, ih]

theorem GoMap.get?_set_self {V : Type} (m : GoMap V) (k : String) (v : V) :
    (m.set k v).get? k = some v :=
  lookup_assign_self k v m.entries

theorem GoMap.get?_set_of_ne {V : Type} (m : GoMap V) (k k' : String) (v : V) (hne : k' ≠ k) :
    (m.set k v).get? k' = m.get? k' :=
  lookup_assign_of_ne k k' v m.entries hne

/-! ## Lemmas on the listing operations -/

theorem foldl_events (l : List (String × Transitions)) (acc : List String) :
    l.foldl (fun events p => events ++ [p.1]) acc = acc ++ l.map Prod.fst := by
  induction l generalizing acc with
  | nil => simp
  | cons p rest ih => rw [List.foldl_cons, ih]; simp

theorem Events_eq (m : Machine) : Events m = m.events.keys := by
  unfold Events GoMap.keys
  rw [foldl_events]
  rfl

theorem Tracks_start (s0 : String) :
    Tracks ([s0], (GoMap.empty : GoMap Bool).set s0 true) := by
  refine ⟨List.nodup_singleton s0, ?_⟩
  intro s
  by_cases h : s = s0
  · subst h
    simp [GoMap.get?_set_self]
  · rw [GoMap.get?_set_of_ne _ _ _ _ h]
    simp [GoMap.get?, GoMap.empty, lookup, h]

theorem statesStep_tracks (acc : List String × GoMap Bool) (x : String) (h : Tracks acc) :
    Tracks (statesStep acc x) ∧ ∀ s, s ∈ (statesStep acc x).1 ↔ s ∈ acc.1 ∨ s = x := by
  by_cases hx : (acc.2.get? x).getD false = true
  · have hstep : statesStep acc x = acc := by simp only [statesStep, hx, if_true]
    rw [hstep]
    refine ⟨h, fun s => ⟨Or.inl, ?_⟩⟩
    rintro (hs | hs)
    · exact hs
    · rw [hs]; exact (h.2 x).mp hx
  · have hstep : statesStep acc x = (acc.1 ++ [x], acc.2.set x true) := by
      simp only [statesStep, hx]
      rfl
    have hnot : x ∉ acc.1 := fun hm => hx ((h.2 x).mpr hm)
    rw [hstep]
    refine ⟨⟨?_, ?_⟩, ?_⟩
    · show (acc.1 ++ [x]).Nodup
      rw [List.nodup_append]
      refine ⟨h.1, List.nodup_singleton x, ?_⟩
      intro a ha hb
      rw [List.mem_singleton] at hb
      exact hnot (hb ▸ ha)
    · intro s
      show ((acc.2.set x true).get? s).getD false = true ↔ s ∈ acc.1 ++ [x]
      by_cases hs : s = x
      · subst hs
        simp [GoMap.get?_set_self]
      · rw [GoMap.get?_set_of_ne _ _ _ _ hs, h.2 s]
        simp [hs]
    · intro s
      show s ∈ acc.1 ++ [x] ↔ _
      simp

theorem foldl_statesStep (ks : List String) (acc : List String × GoMap Bool) (h : Tracks acc) :
    Tracks (ks.foldl statesStep acc) ∧
      ∀ s, s ∈ (ks.foldl statesStep acc).1 ↔ s ∈ acc.1 ∨ s ∈ ks := by
  induction ks generalizing acc with
  | nil => exact ⟨h, fun s => by simp⟩
  | cons k rest ih =>
    have h1 := statesStep_tracks acc k h
    have h2 := ih (statesStep acc k) h1.1
    rw [List.foldl_cons]
    refine ⟨h2.1, fun s => ?_⟩
    rw [h2.2 s, h1.2 s, List.mem_cons]
    tauto

theorem foldl_states (l : List (String × Transitions)) (acc : List String × GoMap Bool)
    (h : Tracks acc) :
    Tracks (l.foldl (fun acc p => p.2.keys.foldl statesStep acc) acc) ∧
      ∀ s, s ∈ (l.foldl (fun acc p => p.2.keys.foldl statesStep acc) acc).1 ↔
        s ∈ acc.1 ∨ ∃ p ∈ l, s ∈ p.2.keys := by
  induction l generalizing acc with
  | nil => exact ⟨h, fun s => by simp⟩
  | cons p rest ih =>
    have h1 := foldl_statesStep p.2.keys acc h
    have h2 := ih (p.2.keys.foldl statesStep acc) h1.1
    rw [List.foldl_cons]
    refine ⟨h2.1, fun s => ?_⟩
    rw [h2.2 s, h1.2 s]
    simp only [List.mem_cons, exists_eq_or_imp]
    tauto

theorem mem_States_iff (m : Machine) (s : String) :
    s ∈ States m ↔ s = State m ∨ ∃ e tr, RegisteredAs m e tr ∧ HasSource tr s := by
  unfold States
  rw [(foldl_states m.events.entries _ (Tracks_start m.state)).2 s, List.mem_singleton]
  constructor
  · rintro (h | ⟨p, hp, hs⟩)
    · exact Or.inl h
    · exact Or.inr ⟨p.1, p.2, hp, hs⟩
  · rintro (h | ⟨e, tr, hreg, hs⟩)
    · exact Or.inl h
    · exact Or.inr ⟨(e, tr), hreg, hs⟩

theorem States_nodup (m : Machine) : (States m).Nodup :=
  (foldl_states m.events.entries _ (Tracks_start m.state)).1.1

/-! ## Lemmas on registration -/

theorem When_of_registered (m : Machine) (e : String) (t : Transitions)
    (h : Registered m e) : When m e t = (some Error.ErrEventExists, m) := by
  obtain ⟨tr, htr⟩ := (GoMap.mem_keys_iff _ _).mp h
  have h1 : m.events.get? e = some tr := (GoMap.get?_eq_some_iff _ _ _).mpr htr
  simp only [When, h1]

theorem When_of_unregistered (m : Machine) (e : String) (t : Transitions)
    (h : ¬ Registered m e) :
    When m e t = (none, { m with events := m.events.set e t }) := by
  have h1 : m.events.get? e = none := (GoMap.get?_eq_none_iff _ _).mpr h
  simp only [When, h1]

theorem Registered_When_iff (m : Machine) (e' : String) (t : Transitions) (e : String) :
    Registered (When m e' t).2 e ↔ Registered m e ∨ (e = e' ∧ (When m e' t).1 = none) := by
  by_cases h : Registered m e'
  · rw [When_of_registered m e' t h]
    constructor
    · exact Or.inl
    · rintro (h1 | h1)
      · exact h1
      · exact absurd h1.2 (by simp)
  · rw [When_of_unregistered m e' t h]
    show e ∈ (assign e' t m.events.entries).map Prod.fst ↔ _
    rw [mem_keys_assign]
    constructor
    · rintro (h1 | h1)
      · exact Or.inr ⟨h1, rfl⟩
      · exact Or.inl h1
    · rintro (h1 | h1)
      · exact Or.inr h1
      · exact Or.inl h1.1

theorem RegisteredAs_When (m : Machine) (e' : String) (t : Transitions) (e : String)
    (tr : Transitions) (h : RegisteredAs m e tr) : RegisteredAs (When m e' t).2 e tr := by
  by_cases h' : Registered m e'
  · rw [When_of_registered m e' t h']
    exact h
  · rw [When_of_unregistered m e' t h']
    show (e, tr) ∈ (m.events.set e' t).entries
    have hent : (m.events.set e' t).entries = m.events.entries ++ [(e', t)] :=
      assign_of_not_mem e' t m.events.entries h'
    rw [hent]
    exact List.mem_append_left _ h

theorem performAll_concat {Env : Type} (sem : Behaviour Env) (w : Machine × Env)
    (ops : List Op) (op : Op) :
    performAll sem w (ops ++ [op]) = perform sem (performAll sem w ops) op := by
  unfold performAll
  rw [List.foldl_append]
  rfl

/-! ## Lemmas on the callback loop -/

theorem foldl_invoke_keeps {Env α : Type} (sem : Behaviour Env) (f : Machine → α)
    (event : String) (cbs : List Callback) (r : Run Env)
    (h : ∀ c ∈ cbs, Keeps sem f c) :
    f (cbs.foldl (invoke sem event) r).machine = f r.machine := by
  induction cbs generalizing r with
  | nil => rfl
  | cons c rest ih =>
    rw [List.foldl_cons, ih _ (fun c' hc' => h c' (List.mem_cons_of_mem _ hc'))]
    exact h c (List.mem_cons_self _ _) event r.machine r.env

theorem foldl_invoke_calls {Env : Type} (sem : Behaviour Env) (event : String)
    (cbs : List Callback) (r : Run Env) :
    (cbs.foldl (invoke sem event) r).calls.map (fun i => (i.cb, i.arg))
      = r.calls.map (fun i => (i.cb, i.arg)) ++ cbs.map (fun c => (c, event)) := by
  induction cbs generalizing r with
  | nil => simp
  | cons c rest ih =>
    rw [List.foldl_cons, ih]
    simp [invoke]

theorem Trigger_of_get {Env : Type} (sem : Behaviour Env) (m : Machine) (e d : String)
    (tr : Transitions) (env : Env) (h1 : m.events.get? e = some tr)
    (h2 : tr.get? m.state = some d) :
    Trigger sem m e env =
      { err := none,
        machine := (notifyAny sem e (notifyState sem e d
          { machine := { m with state := d }, env := env, calls := [] })).machine,
        env := (notifyAny sem e (notifyState sem e d
          { machine := { m with state := d }, env := env, calls := [] })).env,
        calls := (notifyAny sem e (notifyState sem e d
          { machine := { m with state := d }, env := env, calls := [] })).calls } := by
  simp only [Trigger, h1, h2]

theorem Trigger_of_unregistered {Env : Type} (sem : Behaviour Env) (m : Machine) (e : String)
    (env : Env) (h1 : m.events.get? e = none) :
    Trigger sem m e env =
      { err := some Error.ErrInvalidEvent, machine := m, env := env, calls := [] } := by
  simp only [Trigger, h1]

theorem Trigger_of_no_source {Env : Type} (sem : Behaviour Env) (m : Machine) (e : String)
    (tr : Transitions) (env : Env) (h1 : m.events.get? e = some tr)
    (h2 : tr.get? m.state = none) :
    Trigger sem m e env =
      { err := some Error.ErrInvalidState, machine := m, env := env, calls := [] } := by
  simp only [Trigger, h1, h2]

theorem notifyState_eq {Env : Type} (sem : Behaviour Env) (e d : String) (r : Run Env) :
    notifyState sem e d r = (callbacksFor r.machine d).foldl (invoke sem e) r := by
  unfold notifyState callbacksFor
  cases r.machine.callbacks.get? d <;> rfl

theorem notifyAny_keeps {Env α : Type} (sem : Behaviour Env) (f : Machine → α) (e : String)
    (r : Run Env) (h : ∀ c, r.machine.callbackAny = some c → Keeps sem f c) :
    f (notifyAny sem e r).machine = f r.machine := by
  unfold notifyAny
  split
  · next cb hcb => exact h cb hcb e r.machine r.env
  · rfl

theorem notifyAny_calls {Env : Type} (sem : Behaviour Env) (e : String) (r : Run Env) :
    (notifyAny sem e r).calls.map (fun i => (i.cb, i.arg))
      = r.calls.map (fun i => (i.cb, i.arg))
        ++ r.machine.callbackAny.toList.map (fun c => (c, e)) := by
  unfold notifyAny
  split
  · next cb hcb => simp [invoke, hcb]
  · next hcb => simp [hcb]

theorem foldl_invoke_observed {Env : Type} (sem : Behaviour Env) (e d : String)
    (cbs : List Callback) (r : Run Env) (h : ∀ c ∈ cbs, Keeps sem Machine.state c)
    (hr : ∀ i ∈ r.calls, i.observed = d) (hd : r.machine.state = d) :
    ∀ i ∈ (cbs.foldl (invoke sem e) r).calls, i.observed = d := by
  induction cbs generalizing r with
  | nil => exact hr
  | cons c rest ih =>
    rw [List.foldl_cons]
    refine ih _ (fun c' hc' => h c' (List.mem_cons_of_mem _ hc')) ?_ ?_
    · intro i hi
      simp only [invoke, List.mem_append, List.mem_singleton] at hi
      rcases hi with hi | hi
      · exact hr i hi
      · rw [hi]; exact hd
    · show (sem c e r.machine r.env).1.state = d
      rw [h c (List.mem_cons_self _ _) e r.machine r.env]
      exact hd

theorem foldl_invoke_calls_append {Env : Type} (sem : Behaviour Env) (e : String)
    (cbs : List Callback) (r : Run Env) :
    ∃ rest, (cbs.foldl (invoke sem e) r).calls = r.calls ++ rest := by
  induction cbs generalizing r with
  | nil => exact ⟨[], by simp⟩
  | cons c rest ih =>
    obtain ⟨tl, htl⟩ := ih (invoke sem e r c)
    refine ⟨{ cb := c, arg := e, observed := State r.machine } :: tl, ?_⟩
    rw [List.foldl_cons, htl]
    simp [invoke]

theorem notifyAny_calls_append {Env : Type} (sem : Behaviour Env) (e : String) (r : Run Env) :
    ∃ rest, (notifyAny sem e r).calls = r.calls ++ rest := by
  unfold notifyAny
  split
  · exact ⟨_, rfl⟩
  · exact ⟨[], by simp⟩

theorem Trigger_keeps {Env α : Type} (sem : Behaviour Env) (f : Machine → α)
    (hf : ∀ (m : Machine) (d : String), f { m with state := d } = f m)
    (h : ∀ c, Keeps sem f c) (m : Machine) (e : String) (env : Env) :
    f (Trigger sem m e env).machine = f m := by
  cases h1 : m.events.get? e with
  | none => rw [Trigger_of_unregistered sem m e env h1]
  | some tr =>
    cases h2 : tr.get? m.state with
    | none => rw [Trigger_of_no_source sem m e tr env h1 h2]
    | some d =>
      rw [Trigger_of_get sem m e d tr env h1 h2]
      show f (notifyAny sem e _).machine = f m
      rw [notifyAny_keeps sem f e _ (fun c _ => h c), notifyState_eq,
        foldl_invoke_keeps sem f e _ _ (fun c _ => h c)]
      exact hf m d

theorem Registered_perform_iff {Env : Type} (sem : Behaviour Env)
    (hsem : ∀ c, Keeps sem Machine.events c) (w : Machine × Env) (op : Op) (e : String) :
    Registered (perform sem w op).1 e ↔
      Registered w.1 e ∨ ∃ t, op = Op.When e t ∧ (When w.1 e t).1 = none := by
  cases op with
  | When e' t =>
    show Registered (When w.1 e' t).2 e ↔ _
    rw [Registered_When_iff]
    constructor
    · rintro (h | ⟨rfl, h⟩)
      · exact Or.inl h
      · exact Or.inr ⟨t, rfl, h⟩
    · rintro (h | ⟨t', ht', h⟩)
      · exact Or.inl h
      · cases ht'
        exact Or.inr ⟨rfl, h⟩
  | On s fn =>
    show Registered w.1 e ↔ _
    constructor
    · exact Or.inl
    · rintro (h | ⟨t', ht', _⟩)
      · exact h
      · cases ht'
  | OnAny fn =>
    show Registered w.1 e ↔ _
    constructor
    · exact Or.inl
    · rintro (h | ⟨t', ht', _⟩)
      · exact h
      · cases ht'
  | Trigger e' =>
    have hk : (Trigger sem w.1 e' w.2).machine.events = w.1.events :=
      Trigger_keeps sem Machine.events (fun _ _ => rfl) hsem w.1 e' w.2
    show e ∈ (Trigger sem w.1 e' w.2).machine.events.keys ↔ _
    rw [hk]
    constructor
    · exact Or.inl
    · rintro (h | ⟨t', ht', _⟩)
      · exact h
      · cases ht'

theorem Registered_performAll_iff {Env : Type} (sem : Behaviour Env)
    (hsem : ∀ c, Keeps sem Machine.events c) (w : Machine × Env) (ops : List Op)
    (e : String) :
    Registered (performAll sem w ops).1 e ↔
      Registered w.1 e ∨ ∃ pre t post, ops = pre ++ Op.When e t :: post ∧
        (When (performAll sem w pre).1 e t).1 = none := by
  induction ops using List.reverseRecOn with
  | nil =>
    constructor
    · exact Or.inl
    · rintro (h | ⟨pre, t, post, hops, _⟩)
      · exact h
      · cases pre <;> cases hops
  | append_singleton init op ih =>
    rw [performAll_concat, Registered_perform_iff sem hsem, ih]
    constructor
    · rintro ((h | ⟨pre, t, post, hops, hok⟩) | ⟨t, hop, hok⟩)
      · exact Or.inl h
      · exact Or.inr ⟨pre, t, post ++ [op], by rw [hops]; simp, hok⟩
      · exact Or.inr ⟨init, t, [], by rw [hop], hok⟩
    · rintro (h | ⟨pre, t, post, hops, hok⟩)
      · exact Or.inl (Or.inl h)
      · rcases List.eq_nil_or_concat post with hpost | ⟨post', y, hpost⟩
        · subst hpost
          have := List.append_inj' hops rfl
          obtain ⟨h1, h2⟩ := this
          cases h2
          subst h1
          exact Or.inr ⟨t, rfl, hok⟩
        · subst hpost
          have hops' : init ++ [op] = (pre ++ Op.When e t :: post') ++ [y] := by
            rw [hops]; simp
          obtain ⟨h1, _⟩ := List.append_inj' hops' rfl
          exact Or.inl (Or.inr ⟨pre, t, post', h1, hok⟩)

theorem callbacksFor_On_self (m : Machine) (s : String) (cb : Callback) :
    callbacksFor (On m s cb) s = callbacksFor m s ++ [cb] := by
  unfold callbacksFor On
  show ((m.callbacks.set s _).get? s).getD [] = _
  rw [GoMap.get?_set_self]
  rfl

theorem callbacksFor_On_of_ne (m : Machine) (s s' : String) (cb : Callback) (hne : s' ≠ s) :
    callbacksFor (On m s cb) s' = callbacksFor m s' := by
  unfold callbacksFor On
  show ((m.callbacks.set s _).get? s').getD [] = _
  rw [GoMap.get?_set_of_ne _ _ _ _ hne]

theorem Trigger_calls_prefix {Env : Type} (sem : Behaviour Env) (m : Machine) (e d : String)
    (tr : Transitions) (env : Env) (hreg : RegisteredAs m e tr) (hd : Sends tr (State m) d) :
    ∃ rest, (Trigger sem m e env).calls.map (fun i => (i.cb, i.arg))
        = (callbacksFor m d).map (fun c => (c, e)) ++ rest ∧ rest.length ≤ 1 := by
  have h1 : m.events.get? e = some tr := (GoMap.get?_eq_some_iff _ _ _).mpr hreg
  have h2 : tr.get? m.state = some d := (GoMap.get?_eq_some_iff _ _ _).mpr hd
  rw [Trigger_of_get sem m e d tr env h1 h2]
  refine ⟨(notifyState sem e d
      { machine := { m with state := d }, env := env, calls := [] }).machine.callbackAny.toList.map
        (fun c => (c, e)), ?_, ?_⟩
  · show (notifyAny sem e _).calls.map (fun i => (i.cb, i.arg)) = _
    rw [notifyAny_calls, notifyState_eq, foldl_invoke_calls]
    rfl
  · cases (notifyState sem e d
      { machine := { m with state := d }, env := env, calls := [] }).machine.callbackAny <;> simp

theorem Trigger_calls_of_keeps {Env : Type} (sem : Behaviour Env) (m : Machine) (e d : String)
    (tr : Transitions) (env : Env) (hreg : RegisteredAs m e tr) (hd : Sends tr (State m) d)
    (hkeep : ∀ c ∈ callbacksFor m d, Keeps sem Machine.callbackAny c) :
    (Trigger sem m e env).calls.map (fun i => (i.cb, i.arg))
      = (callbacksFor m d).map (fun c => (c, e))
        ++ m.callbackAny.toList.map (fun c => (c, e)) := by
  have h1 : m.events.get? e = some tr := (GoMap.get?_eq_some_iff _ _ _).mpr hreg
  have h2 : tr.get? m.state = some d := (GoMap.get?_eq_some_iff _ _ _).mpr hd
  have hany : (notifyState sem e d
      { machine := { m with state := d }, env := env, calls := [] }).machine.callbackAny
        = m.callbackAny := by
    rw [notifyState_eq]
    exact foldl_invoke_keeps sem Machine.callbackAny e _ _ hkeep
  rw [Trigger_of_get sem m e d tr env h1 h2]
  show (notifyAny sem e _).calls.map (fun i => (i.cb, i.arg)) = _
  rw [notifyAny_calls, hany, notifyState_eq, foldl_invoke_calls]
  rfl

theorem Keeps_of_Inert {Env α : Type} (sem : Behaviour Env) (f : Machine → α) (c : Callback)
    (h : Inert sem c) : Keeps sem f c :=
  fun ev m env => congrArg f (h ev m env)

theorem State_When (m : Machine) (e : String) (t : Transitions) :
    State (When m e t).2 = State m := by
  by_cases h : Registered m e
  · rw [When_of_registered m e t h]
  · rw [When_of_unregistered m e t h]
    rfl

theorem callbacks_When (m : Machine) (e : String) (t : Transitions) :
    (When m e t).2.callbacks = m.callbacks ∧ (When m e t).2.callbackAny = m.callbackAny := by
  by_cases h : Registered m e
  · rw [When_of_registered m e t h]
    exact ⟨rfl, rfl⟩
  · rw [When_of_unregistered m e t h]
    exact ⟨rfl, rfl⟩

theorem mem_TriggerableEvents_iff (m : Machine) (e : String) :
    e ∈ TriggerableEvents m ↔ ∃ tr, RegisteredAs m e tr ∧ HasSource tr (State m) := by
  rw [TriggerableEvents_eq, List.mem_map]
  constructor
  · rintro ⟨p, hp, rfl⟩
    rw [List.mem_filter] at hp
    exact ⟨p.2, hp.1, (GoMap.get?_isSome_iff _ _).mp hp.2⟩
  · rintro ⟨tr, htr, hsrc⟩
    exact ⟨(e, tr), List.mem_filter.mpr ⟨htr, (GoMap.get?_isSome_iff _ _).mpr hsrc⟩, rfl⟩

theorem RegisteredAs_perform {Env : Type} (sem : Behaviour Env) (hsem : ∀ c, Inert sem c)
    (w : Machine × Env) (op : Op) (e : String) (tr : Transitions)
    (h : RegisteredAs w.1 e tr) : RegisteredAs (perform sem w op).1 e tr := by
  cases op with
  | When e' t => exact RegisteredAs_When w.1 e' t e tr h
  | On s fn => exact h
  | OnAny fn => exact h
  | Trigger e' =>
    have hk : (Trigger sem w.1 e' w.2).machine.events = w.1.events :=
      Trigger_keeps sem Machine.events (fun _ _ => rfl)
        (fun c => Keeps_of_Inert sem _ c (hsem c)) w.1 e' w.2
    show (e, tr) ∈ (Trigger sem w.1 e' w.2).machine.events.entries
    rw [hk]
    exact h

theorem State_perform {Env : Type} (sem : Behaviour Env) (hsem : ∀ c, Inert sem c)
    (w : Machine × Env) (op : Op) :
    State (perform sem w op).1 = State w.1 ∨
      ∃ e tr, op = Op.Trigger e ∧ (Trigger sem w.1 e w.2).err = none ∧
        RegisteredAs w.1 e tr ∧ Sends tr (State w.1) (State (perform sem w op).1) := by
  cases op with
  | When e' t => exact Or.inl (State_When w.1 e' t)
  | On s fn => exact Or.inl rfl
  | OnAny fn => exact Or.inl rfl
  | Trigger e =>
    show State (Trigger sem w.1 e w.2).machine = State w.1 ∨ _
    cases h1 : w.1.events.get? e with
    | none =>
      left
      rw [Trigger_of_unregistered sem w.1 e w.2 h1]
    | some tr =>
      cases h2 : tr.get? w.1.state with
      | none =>
        left
        rw [Trigger_of_no_source sem w.1 e tr w.2 h1 h2]
      | some d =>
        right
        have hreg : RegisteredAs w.1 e tr := (GoMap.get?_eq_some_iff _ _ _).mp h1
        have hd : Sends tr (State w.1) d := (GoMap.get?_eq_some_iff _ _ _).mp h2
        have hst : State (perform sem w (Op.Trigger e)).1 = d := by
          show (Trigger sem w.1 e w.2).machine.state = d
          rw [Trigger_of_get sem w.1 e d tr w.2 h1 h2]
          show (notifyAny sem e _).machine.state = d
          rw [notifyAny_keeps sem Machine.state e _
              (fun c _ => Keeps_of_Inert sem _ c (hsem c)), notifyState_eq,
            foldl_invoke_keeps sem Machine.state e _ _
              (fun c _ => Keeps_of_Inert sem _ c (hsem c))]
        refine ⟨e, tr, rfl, ?_, hreg, ?_⟩
        · rw [Trigger_of_get sem w.1 e d tr w.2 h1 h2]
        · rw [hst]; exact hd

theorem State_performAll {Env : Type} (sem : Behaviour Env) (hsem : ∀ c, Inert sem c)
    (w : Machine × Env) (ops : List Op) :
    State (performAll sem w ops).1 = State w.1 ∨
      ∃ pre e post tr, ops = pre ++ Op.Trigger e :: post ∧
        (Trigger sem (performAll sem w pre).1 e (performAll sem w pre).2).err = none ∧
        RegisteredAs (performAll sem w pre).1 e tr ∧
        Sends tr (State (performAll sem w pre).1) (State (performAll sem w ops).1) ∧
        RegisteredAs (performAll sem w ops).1 e tr := by
  induction ops using List.reverseRecOn with
  | nil => exact Or.inl rfl
  | append_singleton init op ih =>
    rw [performAll_concat]
    rcases State_perform sem hsem (performAll sem w init) op with hsame | ⟨e, tr, hop, hok, hreg, hd⟩
    · rw [hsame]
      rcases ih with h | ⟨pre, e, post, tr, hops, hok, hreg, hd, hfin⟩
      · exact Or.inl h
      · exact Or.inr ⟨pre, e, post ++ [op], tr, by rw [hops]; simp, hok, hreg, hd,
          RegisteredAs_perform sem hsem _ op e tr hfin⟩
    · exact Or.inr ⟨init, e, [], tr, by rw [hop], hok, hreg, hd,
        RegisteredAs_perform sem hsem _ op e tr hreg⟩

/-! ## Lemmas on callbacks that call the machine -/

theorem foldl_invoke_preserves {Env : Type} (sem : Behaviour Env) (J : Machine → Env → Prop)
    (hsem : ∀ c ev m env, J m env → J (sem c ev m env).1 (sem c ev m env).2)
    (event : String) (cbs : List Callback) (r : Run Env) (h : J r.machine r.env) :
    J (cbs.foldl (invoke sem event) r).machine (cbs.foldl (invoke sem event) r).env := by
  induction cbs generalizing r with
  | nil => exact h
  | cons c rest ih =>
    rw [List.foldl_cons]
    exact ih _ (hsem c event r.machine r.env h)

theorem notifyAny_preserves {Env : Type} (sem : Behaviour Env) (J : Machine → Env → Prop)
    (hsem : ∀ c ev m env, J m env → J (sem c ev m env).1 (sem c ev m env).2)
    (event : String) (r : Run Env) (h : J r.machine r.env) :
    J (notifyAny sem event r).machine (notifyAny sem event r).env := by
  unfold notifyAny
  split
  · next cb _ => exact hsem cb event r.machine r.env h
  · exact h

theorem Trigger_preserves {Env : Type} (sem : Behaviour Env) (J : Machine → Env → Prop)
    (hstate : ∀ (m : Machine) (d : String) (env : Env), J m env → J { m with state := d } env)
    (hsem : ∀ c ev m env, J m env → J (sem c ev m env).1 (sem c ev m env).2)
    (m : Machine) (e : String) (env : Env) (h : J m env) :
    J (Trigger sem m e env).machine (Trigger sem m e env).env := by
  cases h1 : m.events.get? e with
  | none =>
    rw [Trigger_of_unregistered sem m e env h1]
    exact h
  | some tr =>
    cases h2 : tr.get? m.state with
    | none =>
      rw [Trigger_of_no_source sem m e tr env h1 h2]
      exact h
    | some d =>
      rw [Trigger_of_get sem m e d tr env h1 h2]
      show J (notifyAny sem e _).machine (notifyAny sem e _).env
      refine notifyAny_preserves sem J hsem e _ ?_
      rw [notifyState_eq]
      exact foldl_invoke_preserves sem J hsem e _ _ (hstate m d env h)

theorem keys_When (m : Machine) (e : String) (t : Transitions) :
    (When m e t).2.events.keys
      = if (When m e t).1 = none then m.events.keys ++ [e] else m.events.keys := by
  by_cases h : Registered m e
  · rw [When_of_registered m e t h]
    simp
  · rw [When_of_unregistered m e t h]
    show (assign e t m.events.entries).map Prod.fst = _
    rw [assign_of_not_mem e t m.events.entries h]
    simp [GoMap.keys]

theorem performLogged_machine {Env : Type} (sem : Behaviour (Env × List String))
    (w : Machine × (Env × List String)) (op : Op) :
    (performLogged sem w op).1 = (perform sem w op).1 := by
  cases op <;> rfl

theorem performLogged_preserves {Env : Type} (sem : Behaviour (Env × List String))
    (hsem : ∀ c ev m x, Logged m x → Logged (sem c ev m x).1 (sem c ev m x).2)
    (w : Machine × (Env × List String)) (op : Op) (h : Logged w.1 w.2) :
    Logged (performLogged sem w op).1 (performLogged sem w op).2 := by
  cases op with
  | When e t =>
    show (When w.1 e t).2.events.keys
      = if (When w.1 e t).1 = none then w.2.2 ++ [e] else w.2.2
    rw [keys_When, h]
  | On s fn => exact h
  | OnAny fn => exact h
  | Trigger e => exact Trigger_preserves sem Logged (fun _ _ _ hm => hm) hsem w.1 e w.2 h

theorem runBody_preserves {Env : Type} (script : Script Env)
    (sem : Behaviour (Env × List String))
    (hsem : ∀ c ev m x, Logged m x → Logged (sem c ev m x).1 (sem c ev m x).2)
    (c : Callback) (ev : String) (steps : Nat) (w : Machine × (Env × List String))
    (h : Logged w.1 w.2) :
    Logged (runBody script sem c ev steps w).1 (runBody script sem c ev steps w).2 := by
  induction steps generalizing w with
  | zero => exact h
  | succ n ih =>
    unfold runBody
    cases hstep : (script c ev w.1 w.2.1).1 with
    | none => exact h
    | some op =>
      exact ih _ (performLogged_preserves sem hsem (w.1, ((script c ev w.1 w.2.1).2, w.2.2)) op h)

theorem scripted_preserves {Env : Type} (script : Script Env) (n : Nat) :
    ∀ c ev m (x : Env × List String), Logged m x →
      Logged (scripted script n c ev m x).1 (scripted script n c ev m x).2 := by
  induction n with
  | zero => intro c ev m x h; exact h
  | succ n ih =>
    intro c ev m x h
    exact runBody_preserves script (scripted script n) ih c ev (n + 1) (m, x) h

theorem performAllLogged_preserves {Env : Type} (sem : Behaviour (Env × List String))
    (hsem : ∀ c ev m x, Logged m x → Logged (sem c ev m x).1 (sem c ev m x).2)
    (ops : List Op) (w : Machine × (Env × List String)) (h : Logged w.1 w.2) :
    Logged (performAllLogged sem w ops).1 (performAllLogged sem w ops).2 := by
  induction ops generalizing w with
  | nil => exact h
  | cons op rest ih => exact ih _ (performLogged_preserves sem hsem w op h)

/-! ## Theorems -/

/-- C1: when `e` is registered with a mapping that sends the current state
`s` to `d`, and the callbacks invoked (those registered for `d` and the
catch-all) do not mutate the machine, `Trigger(e)` returns nil and `State()`
is `d` afterwards. -/
theorem Trigger_moves_to_destination {Env : Type} (sem : Behaviour Env) (m : Machine)
    (e s d : String) (tr : Transitions) (env : Env)
    (hreg : RegisteredAs m e tr) (hs : State m = s) (hd : Sends tr s d)
    (hcb : ∀ c, c ∈ callbacksFor m d ∨ m.callbackAny = some c → Inert sem c) :
    (Trigger sem m e env).err = none ∧ State (Trigger sem m e env).machine = d := by
  have h1 : m.events.get? e = some tr := (GoMap.get?_eq_some_iff _ _ _).mpr hreg
  have h2 : tr.get? m.state = some d := by
    rw [GoMap.get?_eq_some_iff]; unfold State at hs; rw [hs]; exact hd
  rw [Trigger_of_get sem m e d tr env h1 h2]
  refine ⟨rfl, ?_⟩
  have hst : (notifyState sem e d
      { machine := { m with state := d }, env := env, calls := [] }).machine
        = { m with state := d } := by
    rw [notifyState_eq]
    exact foldl_invoke_keeps sem id e _ _ (fun c hc => hcb c (Or.inl hc))
  have hany : (notifyAny sem e (notifyState sem e d
      { machine := { m with state := d }, env := env, calls := [] })).machine
        = (notifyState sem e d
      { machine := { m with state := d }, env := env, calls := [] }).machine := by
    refine notifyAny_keeps sem (fun x => x) e _ ?_
    rw [hst]
    intro c hc
    exact hcb c (Or.inr hc)
  show State (notifyAny sem e _).machine = d
  rw [hany, hst]
  rfl

/-- C1, the scenario of the test suite: from "pending", triggering
confirm, reset, ignore, reset succeeds each time and yields the states
confirmed, pending, ignored, pending. -/
theorem Trigger_moves_to_destination_witness :
    ((Trigger idle newMachine "confirm" ()).err = none ∧ State afterConfirm = "confirmed") ∧
    ((Trigger idle afterConfirm "reset" ()).err = none ∧ State afterReset = "pending") ∧
    ((Trigger idle afterReset "ignore" ()).err = none ∧ State afterIgnore = "ignored") ∧
    ((Trigger idle afterIgnore "reset" ()).err = none ∧
      State (Trigger idle afterIgnore "reset" ()).machine = "pending") :=
  ⟨Trigger_moves_to_destination idle newMachine "confirm" "pending" "confirmed"
      (GoMap.ofList [("pending", "confirmed")]) () (by decide) (by decide) (by decide)
      (fun _ _ _ _ _ => rfl),
   Trigger_moves_to_destination idle afterConfirm "reset" "confirmed" "pending"
      (GoMap.ofList [("confirmed", "pending"), ("ignored", "pending")]) ()
      (by decide) (by decide) (by decide) (fun _ _ _ _ _ => rfl),
   Trigger_moves_to_destination idle afterReset "ignore" "pending" "ignored"
      (GoMap.ofList [("pending", "ignored")]) () (by decide) (by decide) (by decide)
      (fun _ _ _ _ _ => rfl),
   Trigger_moves_to_destination idle afterIgnore "reset" "ignored" "pending"
      (GoMap.ofList [("confirmed", "pending"), ("ignored", "pending")]) ()
      (by decide) (by decide) (by decide) (fun _ _ _ _ _ => rfl)⟩

/-- C2: `Trigger(e)` returns `ErrInvalidEvent` exactly when `e` is not a
registered event, and then `State()` is what it was before the call. -/
theorem Trigger_invalid_event_iff {Env : Type} (sem : Behaviour Env) (m : Machine)
    (e : String) (env : Env) :
    ((Trigger sem m e env).err = some Error.ErrInvalidEvent ↔ ¬ Registered m e) ∧
    ((Trigger sem m e env).err = some Error.ErrInvalidEvent →
      State (Trigger sem m e env).machine = State m) := by
  cases h1 : m.events.get? e with
  | none =>
    have hn : ¬ Registered m e := (GoMap.get?_eq_none_iff _ _).mp h1
    rw [Trigger_of_unregistered sem m e env h1]
    exact ⟨⟨fun _ => hn, fun _ => rfl⟩, fun _ => rfl⟩
  | some tr =>
    have hr : Registered m e :=
      (GoMap.mem_keys_iff _ _).mpr ⟨tr, (GoMap.get?_eq_some_iff _ _ _).mp h1⟩
    cases h2 : tr.get? m.state with
    | none =>
      rw [Trigger_of_no_source sem m e tr env h1 h2]
      exact ⟨⟨(fun h => by cases h), fun h => absurd hr h⟩, fun h => by cases h⟩
    | some d =>
      rw [Trigger_of_get sem m e d tr env h1 h2]
      exact ⟨⟨(fun h => by cases h), fun h => absurd hr h⟩, fun h => by cases h⟩

/-- C2 on the machine of the test suite: "random_event" is not registered,
the call returns `ErrInvalidEvent` and the state stays "pending". -/
theorem Trigger_invalid_event_iff_witness :
    ¬ Registered newMachine "random_event" ∧
    (Trigger idle newMachine "random_event" ()).err = some Error.ErrInvalidEvent ∧
    State (Trigger idle newMachine "random_event" ()).machine = "pending" :=
  have h : ¬ Registered newMachine "random_event" := by decide
  have he := (Trigger_invalid_event_iff idle newMachine "random_event" ()).1.mpr h
  ⟨h, he, (Trigger_invalid_event_iff idle newMachine "random_event" ()).2 he⟩

/-- C3: `Trigger(e)` returns `ErrInvalidState` exactly when `e` is registered
and its mapping has no entry keyed by the current state, and then `State()`
is what it was before the call. -/
theorem Trigger_invalid_state_iff {Env : Type} (sem : Behaviour Env) (m : Machine)
    (e : String) (env : Env) :
    ((Trigger sem m e env).err = some Error.ErrInvalidState ↔
      ∃ tr, RegisteredAs m e tr ∧ ¬ HasSource tr (State m)) ∧
    ((Trigger sem m e env).err = some Error.ErrInvalidState →
      State (Trigger sem m e env).machine = State m) := by
  cases h1 : m.events.get? e with
  | none =>
    have hn : ¬ Registered m e := (GoMap.get?_eq_none_iff _ _).mp h1
    rw [Trigger_of_unregistered sem m e env h1]
    refine ⟨⟨(fun h => by cases h), ?_⟩, fun h => by cases h⟩
    rintro ⟨tr, htr, _⟩
    exact absurd ((GoMap.mem_keys_iff _ _).mpr ⟨tr, htr⟩) hn
  | some tr =>
    have hr : RegisteredAs m e tr := (GoMap.get?_eq_some_iff _ _ _).mp h1
    cases h2 : tr.get? m.state with
    | none =>
      rw [Trigger_of_no_source sem m e tr env h1 h2]
      exact ⟨⟨fun _ => ⟨tr, hr, (GoMap.get?_eq_none_iff _ _).mp h2⟩, fun _ => rfl⟩, fun _ => rfl⟩
    | some d =>
      rw [Trigger_of_get sem m e d tr env h1 h2]
      refine ⟨⟨(fun h => by cases h), ?_⟩, fun h => by cases h⟩
      rintro ⟨tr', htr', hno⟩
      have e1 : m.events.get? e = some tr' := (GoMap.get?_eq_some_iff _ _ _).mpr htr'
      rw [h1] at e1
      cases e1
      have : tr.get? m.state = none := (GoMap.get?_eq_none_iff _ _).mpr hno
      rw [h2] at this
      cases this

/-- C3 on the machine of the test suite at "pending": "reset" is registered,
its mapping has no entry for "pending", the call returns `ErrInvalidState`
and the state stays "pending". -/
theorem Trigger_invalid_state_iff_witness :
    (∃ tr, RegisteredAs newMachine "reset" tr ∧ ¬ HasSource tr (State newMachine)) ∧
    (Trigger idle newMachine "reset" ()).err = some Error.ErrInvalidState ∧
    State (Trigger idle newMachine "reset" ()).machine = "pending" :=
  have h : ∃ tr, RegisteredAs newMachine "reset" tr ∧ ¬ HasSource tr (State newMachine) :=
    ⟨GoMap.ofList [("confirmed", "pending"), ("ignored", "pending")], by decide, by decide⟩
  have he := (Trigger_invalid_state_iff idle newMachine "reset" ()).1.mpr h
  ⟨h, he, (Trigger_invalid_state_iff idle newMachine "reset" ()).2 he⟩

/-- C4: when `Trigger(e)` returns an error, the error is `ErrInvalidEvent` or
`ErrInvalidState`, the call invoked no callback, and the machine (state,
registry, callback lists, catch-all callback) and the rest of the program
state are what they were before the call. -/
theorem Trigger_error_is_silent {Env : Type} (sem : Behaviour Env) (m : Machine)
    (e : String) (env : Env) (herr : (Trigger sem m e env).err ≠ none) :
    ((Trigger sem m e env).err = some Error.ErrInvalidEvent ∨
      (Trigger sem m e env).err = some Error.ErrInvalidState) ∧
    (Trigger sem m e env).calls = [] ∧
    (Trigger sem m e env).machine = m ∧
    (Trigger sem m e env).env = env := by
  cases h1 : m.events.get? e with
  | none =>
    rw [Trigger_of_unregistered sem m e env h1]
    exact ⟨Or.inl rfl, rfl, rfl, rfl⟩
  | some tr =>
    cases h2 : tr.get? m.state with
    | none =>
      rw [Trigger_of_no_source sem m e tr env h1 h2]
      exact ⟨Or.inr rfl, rfl, rfl, rfl⟩
    | some d =>
      rw [Trigger_of_get sem m e d tr env h1 h2] at herr
      exact absurd rfl herr

/-- C4 on a machine with a callback on "pending" and a catch-all callback,
the first of which would move the machine: the failing `Trigger("reset")`
calls neither and leaves the machine alone. -/
theorem Trigger_error_is_silent_witness :
    (Trigger reentrant watched "reset" ()).err ≠ none ∧
    (Trigger reentrant watched "reset" ()).calls = [] ∧
    (Trigger reentrant watched "reset" ()).machine = watched :=
  have h : (Trigger reentrant watched "reset" ()).err ≠ none := by decide
  ⟨h, (Trigger_error_is_silent reentrant watched "reset" () h).2.1,
    (Trigger_error_is_silent reentrant watched "reset" () h).2.2.1⟩

/-- C5 as stated fails: on the machine with callback 1 on "confirmed" and
catch-all callback 2, where callback 1 calls `m.OnAny` with callback 3, the
successful `Trigger("confirm")` invokes 1 and then 3, not 1 and then 2. -/
theorem Trigger_invocations_counterexample :
    RegisteredAs guarded "confirm" (GoMap.ofList [("pending", "confirmed")]) ∧
    Sends (GoMap.ofList [("pending", "confirmed")]) (State guarded) "confirmed" ∧
    (Trigger swapsAny guarded "confirm" ()).err = none ∧
    (Trigger swapsAny guarded "confirm" ()).calls.map (fun i => (i.cb, i.arg))
      = [(⟨1⟩, "confirm"), (⟨3⟩, "confirm")] ∧
    (callbacksFor guarded "confirmed").map (fun c => (c, "confirm"))
        ++ guarded.callbackAny.toList.map (fun c => (c, "confirm"))
      = [(⟨1⟩, "confirm"), (⟨2⟩, "confirm")] ∧
    (Trigger swapsAny guarded "confirm" ()).calls.map (fun i => (i.cb, i.arg))
      ≠ (callbacksFor guarded "confirmed").map (fun c => (c, "confirm"))
        ++ guarded.callbackAny.toList.map (fun c => (c, "confirm")) := by
  decide

/-- C5, amended: when `Trigger(e)` succeeds with destination `d` and the
callbacks registered with `On` for `d` do not themselves replace the
catch-all callback, the invocations made by the call are exactly the
callbacks registered for `d`, in registration order, followed by the
catch-all callback once if one is set, each with argument `e`; nothing else
is invoked; and when `d` has no `On` callbacks the catch-all callback is
invoked exactly once. -/
theorem Trigger_invocations {Env : Type} (sem : Behaviour Env) (m : Machine)
    (e d : String) (tr : Transitions) (env : Env)
    (hreg : RegisteredAs m e tr) (hd : Sends tr (State m) d)
    (hkeep : ∀ c ∈ callbacksFor m d, Keeps sem Machine.callbackAny c) :
    (Trigger sem m e env).err = none ∧
    (Trigger sem m e env).calls.map (fun i => (i.cb, i.arg))
      = (callbacksFor m d).map (fun c => (c, e))
        ++ m.callbackAny.toList.map (fun c => (c, e)) ∧
    (∀ i ∈ (Trigger sem m e env).calls,
      i.arg = e ∧ (i.cb ∈ callbacksFor m d ∨ m.callbackAny = some i.cb)) ∧
    (callbacksFor m d = [] → ∀ c, m.callbackAny = some c →
      (Trigger sem m e env).calls.map (fun i => (i.cb, i.arg)) = [(c, e)]) := by
  have h1 : m.events.get? e = some tr := (GoMap.get?_eq_some_iff _ _ _).mpr hreg
  have h2 : tr.get? m.state = some d := (GoMap.get?_eq_some_iff _ _ _).mpr hd
  have hany : (notifyState sem e d
      { machine := { m with state := d }, env := env, calls := [] }).machine.callbackAny
        = m.callbackAny := by
    rw [notifyState_eq]
    exact foldl_invoke_keeps sem Machine.callbackAny e _ _ hkeep
  have hcalls : (Trigger sem m e env).calls.map (fun i => (i.cb, i.arg))
      = (callbacksFor m d).map (fun c => (c, e))
        ++ m.callbackAny.toList.map (fun c => (c, e)) := by
    rw [Trigger_of_get sem m e d tr env h1 h2]
    show (notifyAny sem e _).calls.map (fun i => (i.cb, i.arg)) = _
    rw [notifyAny_calls, hany, notifyState_eq, foldl_invoke_calls]
    rfl
  refine ⟨by rw [Trigger_of_get sem m e d tr env h1 h2], hcalls, ?_, ?_⟩
  · intro i hi
    have hmem : (i.cb, i.arg) ∈ (Trigger sem m e env).calls.map (fun i => (i.cb, i.arg)) :=
      List.mem_map.mpr ⟨i, hi, rfl⟩
    rw [hcalls, List.mem_append] at hmem
    rcases hmem with hmem | hmem
    · obtain ⟨c, hc, hce⟩ := List.mem_map.mp hmem
      cases hce
      exact ⟨rfl, Or.inl hc⟩
    · obtain ⟨c, hc, hce⟩ := List.mem_map.mp hmem
      cases hce
      exact ⟨rfl, Or.inr (Option.mem_toList.mp hc)⟩
  · intro hnil c hc
    rw [hcalls, hnil, hc]
    rfl

/-- C5, amended, on the machine of the test suite with callback 1 on
"pending" and catch-all callback 2: after confirm, `Trigger("reset")` enters
"pending" and invokes 1 and then 2, each with "reset". -/
theorem Trigger_invocations_witness :
    (Trigger idle (Trigger idle watched "confirm" ()).machine "reset" ()).calls.map
      (fun i => (i.cb, i.arg)) = [(⟨1⟩, "reset"), (⟨2⟩, "reset")] :=
  (Trigger_invocations idle (Trigger idle watched "confirm" ()).machine "reset" "pending"
    (GoMap.ofList [("confirmed", "pending"), ("ignored", "pending")]) ()
    (by decide) (by decide) (fun _ _ _ _ _ => rfl)).2.1

/-- C6 as stated fails: on the machine with callbacks 1 and 2 on "confirmed",
where callback 1 calls `m.Trigger("reset")`, the successful
`Trigger("confirm")` with destination "confirmed" invokes callback 2 while
`State()` is "pending". -/
theorem Trigger_observed_counterexample :
    RegisteredAs chained "confirm" (GoMap.ofList [("pending", "confirmed")]) ∧
    Sends (GoMap.ofList [("pending", "confirmed")]) (State chained) "confirmed" ∧
    (Trigger reentrant chained "confirm" ()).err = none ∧
    (Trigger reentrant chained "confirm" ()).calls
      = [⟨⟨1⟩, "confirm", "confirmed"⟩, ⟨⟨2⟩, "confirm", "pending"⟩] ∧
    ¬ ∀ i ∈ (Trigger reentrant chained "confirm" ()).calls, i.observed = "confirmed" := by
  decide

/-- C6, amended: when `Trigger(e)` succeeds with destination `d`, the first
callback it invokes observes `State() = d`, the state being updated before
any callback is invoked; and when the callbacks registered with `On` for `d`
do not themselves change the machine's state, every callback invoked by the
call, per-state or catch-all, observes `State() = d`. -/
theorem Trigger_observed {Env : Type} (sem : Behaviour Env) (m : Machine)
    (e d : String) (tr : Transitions) (env : Env)
    (hreg : RegisteredAs m e tr) (hd : Sends tr (State m) d) :
    (Trigger sem m e env).err = none ∧
    (∀ i, (Trigger sem m e env).calls.head? = some i → i.observed = d) ∧
    ((∀ c ∈ callbacksFor m d, Keeps sem Machine.state c) →
      ∀ i ∈ (Trigger sem m e env).calls, i.observed = d) := by
  have h1 : m.events.get? e = some tr := (GoMap.get?_eq_some_iff _ _ _).mpr hreg
  have h2 : tr.get? m.state = some d := (GoMap.get?_eq_some_iff _ _ _).mpr hd
  rw [Trigger_of_get sem m e d tr env h1 h2]
  refine ⟨rfl, ?_, ?_⟩
  · intro i hi
    have hi' : (notifyAny sem e (notifyState sem e d
        { machine := { m with state := d }, env := env, calls := [] })).calls.head? = some i := hi
    rw [notifyState_eq] at hi'
    cases hcbs : callbacksFor { m with state := d } d with
    | nil =>
      rw [hcbs] at hi'
      simp only [List.foldl_nil, notifyAny] at hi'
      split at hi'
      · simp only [invoke, List.nil_append, List.head?_cons, Option.some.injEq] at hi'
        rw [← hi']
        rfl
      · simp at hi'
    | cons c cs =>
      rw [hcbs, List.foldl_cons] at hi'
      obtain ⟨t1, ht1⟩ := foldl_invoke_calls_append sem e cs
        (invoke sem e { machine := { m with state := d }, env := env, calls := [] } c)
      obtain ⟨t2, ht2⟩ := notifyAny_calls_append sem e (cs.foldl (invoke sem e)
        (invoke sem e { machine := { m with state := d }, env := env, calls := [] } c))
      rw [ht2, ht1] at hi'
      simp only [invoke, List.nil_append, List.singleton_append, List.cons_append,
        List.head?_cons, Option.some.injEq] at hi'
      rw [← hi']
      rfl
  · intro hkeep i hi
    have hi' : i ∈ (notifyAny sem e (notifyState sem e d
        { machine := { m with state := d }, env := env, calls := [] })).calls := hi
    have hobs := foldl_invoke_observed sem e d (callbacksFor { m with state := d } d)
      { machine := { m with state := d }, env := env, calls := [] } hkeep
      (fun i hi => by cases hi) rfl
    have hst : (notifyState sem e d
        { machine := { m with state := d }, env := env, calls := [] }).machine.state = d := by
      rw [notifyState_eq]
      exact foldl_invoke_keeps sem Machine.state e _ _ hkeep
    rw [← notifyState_eq] at hobs
    unfold notifyAny at hi'
    split at hi'
    · simp only [invoke, List.mem_append, List.mem_singleton] at hi'
      rcases hi' with hi' | hi'
      · exact hobs i hi'
      · rw [hi']; exact hst
    · exact hobs i hi'

/-- C6, amended, on the machine of the test suite with callback 1 on
"pending" and catch-all callback 2: after confirm, the two callbacks invoked
by `Trigger("reset")` both observe "pending". -/
theorem Trigger_observed_witness :
    RegisteredAs afterConfirmWatched "reset"
      (GoMap.ofList [("confirmed", "pending"), ("ignored", "pending")]) ∧
    (Trigger idle afterConfirmWatched "reset" ()).calls.length = 2 ∧
    ∀ i ∈ (Trigger idle afterConfirmWatched "reset" ()).calls, i.observed = "pending" :=
  ⟨by decide, by decide,
    (Trigger_observed idle afterConfirmWatched "reset" "pending"
      (GoMap.ofList [("confirmed", "pending"), ("ignored", "pending")]) ()
      (by decide) (by decide)).2.2 (fun _ _ _ _ _ => rfl)⟩

/-- C7: when `e` is already registered, `When(e, t)` returns
`ErrEventExists` and leaves the machine, hence the transition registry, as
it was: the same events with the same mappings, so that a later `Trigger`
behaves as it would have without the call. -/
theorem When_registered (m : Machine) (e : String) (t : Transitions) (h : Registered m e) :
    (When m e t).1 = some Error.ErrEventExists ∧
    (When m e t).2.events = m.events ∧
    (∀ e' tr, RegisteredAs (When m e t).2 e' tr ↔ RegisteredAs m e' tr) ∧
    (∀ (Env : Type) (sem : Behaviour Env) (x : String) (env : Env),
      Trigger sem (When m e t).2 x env = Trigger sem m x env) := by
  obtain ⟨tr, htr⟩ := (GoMap.mem_keys_iff _ _).mp h
  have h1 : m.events.get? e = some tr := (GoMap.get?_eq_some_iff _ _ _).mpr htr
  have hw : When m e t = (some Error.ErrEventExists, m) := by
    simp only [When, h1]
  rw [hw]
  exact ⟨rfl, rfl, fun _ _ => Iff.rfl, fun _ _ _ _ => rfl⟩

/-- C7 on the test `TestMachine_When`: with "confirm" registered as
pending to confirmed, `When("confirm", foo to bar)` returns `ErrEventExists`,
"confirm" keeps its mapping, and `Trigger("confirm")` still leads to
"confirmed". -/
theorem When_registered_witness :
    Registered confirmOnly "confirm" ∧
    (When confirmOnly "confirm" (GoMap.ofList [("foo", "bar")])).1
      = some Error.ErrEventExists ∧
    RegisteredAs (When confirmOnly "confirm" (GoMap.ofList [("foo", "bar")])).2 "confirm"
      (GoMap.ofList [("pending", "confirmed")]) ∧
    ¬ RegisteredAs (When confirmOnly "confirm" (GoMap.ofList [("foo", "bar")])).2 "confirm"
      (GoMap.ofList [("foo", "bar")]) ∧
    State (Trigger idle (When confirmOnly "confirm" (GoMap.ofList [("foo", "bar")])).2
      "confirm" ()).machine = "confirmed" :=
  have h := When_registered confirmOnly "confirm" (GoMap.ofList [("foo", "bar")]) (by decide)
  ⟨by decide, h.1, (h.2.2.1 _ _).mpr (by decide), fun hc => absurd ((h.2.2.1 _ _).mp hc) (by decide),
    (congrArg (fun o => State o.machine) (h.2.2.2 Unit idle "confirm" ())).trans (by decide)⟩

/-- C8: when `e` is not yet registered, `When(e, t)` returns nil for every
mapping `t`; afterwards `e` is registered with exactly the mapping `t`, and
every other event is registered with a mapping exactly when it was before. -/
theorem When_unregistered (m : Machine) (e : String) (t : Transitions)
    (h : ¬ Registered m e) :
    (When m e t).1 = none ∧
    Registered (When m e t).2 e ∧
    (∀ tr, RegisteredAs (When m e t).2 e tr ↔ tr = t) ∧
    (∀ e' tr, e' ≠ e → (RegisteredAs (When m e t).2 e' tr ↔ RegisteredAs m e' tr)) := by
  have h1 : m.events.get? e = none := (GoMap.get?_eq_none_iff _ _).mpr h
  have hw : When m e t = (none, { m with events := m.events.set e t }) := by
    simp only [When, h1]
  have hent : (m.events.set e t).entries = m.events.entries ++ [(e, t)] :=
    assign_of_not_mem e t m.events.entries h
  have hmem : ∀ e' tr, RegisteredAs (When m e t).2 e' tr ↔
      RegisteredAs m e' tr ∨ (e' = e ∧ tr = t) := by
    intro e' tr
    rw [hw]
    show (e', tr) ∈ (m.events.set e t).entries ↔ _
    rw [hent, List.mem_append, List.mem_singleton, Prod.mk.injEq]
    rfl
  refine ⟨by rw [hw], ?_, ?_, ?_⟩
  · exact (GoMap.mem_keys_iff _ _).mpr ⟨t, (hmem e t).mpr (Or.inr ⟨rfl, rfl⟩)⟩
  · intro tr
    rw [hmem]
    constructor
    · rintro (h2 | h2)
      · exact absurd ((GoMap.mem_keys_iff _ _).mpr ⟨tr, h2⟩) h
      · exact h2.2
    · intro h2
      exact Or.inr ⟨rfl, h2⟩
  · intro e' tr hne
    rw [hmem]
    constructor
    · rintro (h2 | h2)
      · exact h2
      · exact absurd h2.1 hne
    · exact Or.inl

/-- C8 on the machine of the test suite: the unregistered event "noop" is
accepted with an empty mapping, and with a mapping between states that
occur nowhere else. -/
theorem When_unregistered_witness :
    ¬ Registered newMachine "noop" ∧
    (When newMachine "noop" GoMap.empty).1 = none ∧
    RegisteredAs (When newMachine "noop" GoMap.empty).2 "noop" GoMap.empty ∧
    (When newMachine "noop" (GoMap.ofList [("foo", "bar")])).1 = none ∧
    RegisteredAs (When newMachine "noop" (GoMap.ofList [("foo", "bar")])).2 "confirm"
      (GoMap.ofList [("pending", "confirmed")]) :=
  have h : ¬ Registered newMachine "noop" := by decide
  ⟨h, (When_unregistered newMachine "noop" GoMap.empty h).1,
    ((When_unregistered newMachine "noop" GoMap.empty h).2.2.1 _).mpr rfl,
    (When_unregistered newMachine "noop" (GoMap.ofList [("foo", "bar")]) h).1,
    ((When_unregistered newMachine "noop" (GoMap.ofList [("foo", "bar")]) h).2.2.2 _ _
      (by decide)).mpr (by decide)⟩

/-- C9: `New(s0)` yields a machine with `State() = s0`, no registered event
(`Events()` and `TriggerableEvents()` are empty), no per-state callback and
no catch-all callback. -/
theorem New_is_blank (s0 : String) :
    State (New s0) = s0 ∧
    (∀ e, ¬ Registered (New s0) e) ∧
    Events (New s0) = [] ∧
    TriggerableEvents (New s0) = [] ∧
    (New s0).callbacks.entries = [] ∧
    (∀ d, callbacksFor (New s0) d = []) ∧
    (New s0).callbackAny = none :=
  ⟨rfl, fun _ h => List.not_mem_nil _ h, rfl, rfl, rfl, fun _ => rfl, rfl⟩

/-- C10: `TriggerableEvents()` contains `e` exactly when `e` is registered
with a mapping that has an entry keyed by the current state, and it lists
no event twice; on the machine of the test suite at "pending" it is confirm
and ignore, and on a fresh machine it is empty. -/
theorem TriggerableEvents_spec :
    (∀ (m : Machine) (e : String),
      e ∈ TriggerableEvents m ↔ ∃ tr, RegisteredAs m e tr ∧ HasSource tr (State m)) ∧
    (∀ m : Machine, (TriggerableEvents m).Nodup) ∧
    (∀ (m : Machine) (e : String),
      e ∈ TriggerableEvents m → (TriggerableEvents m).count e = 1) ∧
    (TriggerableEvents newMachine).Perm ["confirm", "ignore"] ∧
    (∀ s0 : String, TriggerableEvents (New s0) = []) := by
  have hnodup : ∀ m : Machine, (TriggerableEvents m).Nodup := by
    intro m
    rw [TriggerableEvents_eq]
    exact List.Nodup.sublist (List.Sublist.map _ (List.filter_sublist _)) m.events.nodup
  refine ⟨?_, hnodup, ?_, ?_, fun _ => rfl⟩
  · intro m e
    rw [TriggerableEvents_eq, List.mem_map]
    constructor
    · rintro ⟨p, hp, rfl⟩
      rw [List.mem_filter] at hp
      exact ⟨p.2, hp.1, (GoMap.get?_isSome_iff _ _).mp hp.2⟩
    · rintro ⟨tr, htr, hsrc⟩
      exact ⟨(e, tr), List.mem_filter.mpr ⟨htr, (GoMap.get?_isSome_iff _ _).mpr hsrc⟩, rfl⟩
  · intro m e he
    exact List.count_eq_one_of_mem (hnodup m) he
  · have : TriggerableEvents newMachine = ["confirm", "ignore"] := by decide
    rw [this]

/-- C12, the failing input: on the machine at "draft" whose only event
"publish" sends "draft" to "published", `States()` is the list of "draft"
alone and leaves out the destination "published". -/
theorem States_omits_destination :
    RegisteredAs oneWay "publish" (GoMap.ofList [("draft", "published")]) ∧
    Sends (GoMap.ofList [("draft", "published")]) "draft" "published" ∧
    States oneWay = ["draft"] ∧
    "published" ∉ States oneWay := by
  decide

/-- C13: `States()` contains the current state whatever is registered, and
on a machine with no registered event it is the one-element list of the
current state. -/
theorem States_has_current (m : Machine) :
    State m ∈ States m ∧ ((∀ e, ¬ Registered m e) → States m = [State m]) := by
  refine ⟨(mem_States_iff m (State m)).mpr (Or.inl rfl), ?_⟩
  intro hnone
  have hnil : m.events.entries = [] := by
    cases hent : m.events.entries with
    | nil => rfl
    | cons p rest =>
      exfalso
      refine hnone p.1 ?_
      show p.1 ∈ m.events.entries.map Prod.fst
      rw [hent]
      exact List.mem_cons_self _ _
  unfold States
  rw [hnil]
  rfl

/-- C13 on a fresh machine at "pending", as in the test: no event is
registered and `States()` is the list of "pending" alone. -/
theorem States_has_current_witness :
    (∀ e, ¬ Registered (New "pending") e) ∧ States (New "pending") = ["pending"] :=
  have h : ∀ e, ¬ Registered (New "pending") e := fun _ hm => List.not_mem_nil _ hm
  ⟨h, (States_has_current (New "pending")).2 h⟩

/-- C14: `States()` lists no state twice. -/
theorem States_no_duplicates (m : Machine) :
    (States m).Nodup ∧ ∀ s, (States m).count s ≤ 1 :=
  ⟨States_nodup m, fun s => List.nodup_iff_count_le_one.mp (States_nodup m) s⟩

/-- C14 on the machine of the test suite, where "pending" is the current
state and a source of both "confirm" and "ignore": it is listed once. -/
theorem States_no_duplicates_witness :
    "pending" ∈ States newMachine ∧ (States newMachine).count "pending" ≤ 1 :=
  ⟨by decide, (States_no_duplicates newMachine).2 "pending"⟩

/-- C15: every element of `States()` is the current state or a state that
occurs in the mapping of a registered event (as a source, hence as a source
or destination). -/
theorem States_only_known (m : Machine) (s : String) (hs : s ∈ States m) :
    s = State m ∨
      ∃ e tr, RegisteredAs m e tr ∧ (HasSource tr s ∨ ∃ src, Sends tr src s) := by
  rcases (mem_States_iff m s).mp hs with h | ⟨e, tr, hreg, hsrc⟩
  · exact Or.inl h
  · exact Or.inr ⟨e, tr, hreg, Or.inl hsrc⟩

/-- C15 on the machine of the test suite: "ignored" is listed by `States()`
and is a source of the registered event "reset". -/
theorem States_only_known_witness :
    "ignored" ∈ States newMachine ∧
    ("ignored" = State newMachine ∨
      ∃ e tr, RegisteredAs newMachine e tr ∧
        (HasSource tr "ignored" ∨ ∃ src, Sends tr src "ignored")) :=
  ⟨by decide, States_only_known newMachine "ignored" (by decide)⟩

/-- C11: `Events()` contains exactly the registered event names, each once.
On a machine built from `New` by any calls, whose callbacks may themselves
call the machine, `Events()` is up to order the list of the events of the
`When` calls that returned nil, those made by callbacks included: a name is
in `Events()` exactly when a `When` call for it returned nil.  When the
callbacks leave the registry alone that call is one of the sequence.  On the
machine of the test suite `Events()` is confirm, ignore and reset. -/
theorem Events_spec :
    (∀ (m : Machine) (e : String), e ∈ Events m ↔ Registered m e) ∧
    (∀ m : Machine, (Events m).Nodup) ∧
    (∀ (m : Machine) (e : String), e ∈ Events m → (Events m).count e = 1) ∧
    (∀ (Env : Type) (script : Script Env) (n : Nat) (s0 : String) (env : Env)
        (ops : List Op),
      (Events (performAllLogged (scripted script n) (New s0, (env, [])) ops).1).Perm
          (performAllLogged (scripted script n) (New s0, (env, [])) ops).2.2 ∧
        ∀ e : String,
          e ∈ Events (performAllLogged (scripted script n) (New s0, (env, [])) ops).1 ↔
            e ∈ (performAllLogged (scripted script n) (New s0, (env, [])) ops).2.2) ∧
    (∀ (Env : Type) (sem : Behaviour Env), (∀ c, Keeps sem Machine.events c) →
      ∀ (s0 : String) (env : Env) (ops : List Op) (e : String),
        e ∈ Events (performAll sem (New s0, env) ops).1 ↔
          ∃ pre t post, ops = pre ++ Op.When e t :: post ∧
            (When (performAll sem (New s0, env) pre).1 e t).1 = none) ∧
    (Events newMachine).Perm ["confirm", "ignore", "reset"] := by
  have hnodup : ∀ m : Machine, (Events m).Nodup := by
    intro m
    rw [Events_eq]
    exact m.events.nodup
  refine ⟨fun m e => by rw [Events_eq]; rfl, hnodup,
    fun m e he => List.count_eq_one_of_mem (hnodup m) he, ?_, ?_, ?_⟩
  · intro Env script n s0 env ops
    have hlog : Logged (performAllLogged (scripted script n) (New s0, (env, [])) ops).1
        (performAllLogged (scripted script n) (New s0, (env, [])) ops).2 :=
      performAllLogged_preserves (scripted script n) (scripted_preserves script n) ops
        (New s0, (env, [])) rfl
    have heq : Events (performAllLogged (scripted script n) (New s0, (env, [])) ops).1
        = (performAllLogged (scripted script n) (New s0, (env, [])) ops).2.2 := by
      rw [Events_eq]
      exact hlog
    exact ⟨by rw [heq], fun e => by rw [heq]⟩
  · intro Env sem hsem s0 env ops e
    rw [Events_eq]
    show Registered _ e ↔ _
    rw [Registered_performAll_iff sem hsem]
    constructor
    · rintro (h | h)
      · exact absurd h (List.not_mem_nil _)
      · exact h
    · exact Or.inr
  · have : Events newMachine = ["confirm", "ignore", "reset"] := by decide
    rw [this]

/-- C11 on the calls of the test suite followed by a second registration of
"confirm", a callback on "confirmed" whose body calls
`m.When("archive", ...)`, and `Trigger("confirm")`: the `When` calls that
returned nil are those for confirm, ignore, reset and, made by the callback,
archive; these four are in `Events()` and "foo" is not.  Without the
callback, "confirm" is in `Events()` by the first call of the sequence. -/
theorem Events_spec_witness :
    (performAllLogged (scripted archiver 2) (New "pending", (0, [])) archiveOps).2.2
      = ["confirm", "ignore", "reset", "archive"] ∧
    "archive" ∈ Events (performAllLogged (scripted archiver 2) (New "pending", (0, []))
      archiveOps).1 ∧
    (Events (performAllLogged (scripted archiver 2) (New "pending", (0, [])) archiveOps).1).Perm
      ["confirm", "ignore", "reset", "archive"] ∧
    "foo" ∉ Events (performAllLogged (scripted archiver 2) (New "pending", (0, []))
      archiveOps).1 ∧
    (performAll idle (New "pending", ()) setupOps).1 = newMachine ∧
    "confirm" ∈ Events (performAll idle (New "pending", ()) setupOps).1 :=
  have hlog : (performAllLogged (scripted archiver 2) (New "pending", (0, []))
      archiveOps).2.2 = ["confirm", "ignore", "reset", "archive"] := by decide
  have h := Events_spec.2.2.2.1 Nat archiver 2 "pending" 0 archiveOps
  ⟨hlog, (h.2 "archive").mpr (hlog ▸ by decide), hlog ▸ h.1,
   fun hfoo => absurd ((h.2 "foo").mp hfoo) (hlog ▸ by decide), by decide,
   (Events_spec.2.2.2.2.1 Unit idle (fun _ _ _ _ => rfl) "pending" () setupOps "confirm").mpr
     ⟨[], GoMap.ofList [("pending", "confirmed")], _, rfl, by decide⟩⟩

/-- C16: `On(s, cb)` makes the callback list of `s` the previous list
followed by `cb` and leaves the list of every other state as it was; hence
after `On` with `cb`, `cb2`, `cb3` on `s`, a `Trigger` into `s` succeeds and
invokes, after the callbacks registered before, these three in that order
(and then at most the catch-all callback). -/
theorem On_appends (m : Machine) (s : String) (cb : Callback) :
    callbacksFor (On m s cb) s = callbacksFor m s ++ [cb] ∧
    (∀ s', s' ≠ s → callbacksFor (On m s cb) s' = callbacksFor m s') ∧
    (∀ (cb2 cb3 : Callback) (Env : Type) (sem : Behaviour Env) (e : String)
        (tr : Transitions) (env : Env),
      RegisteredAs m e tr → Sends tr (State m) s →
        (Trigger sem (On (On (On m s cb) s cb2) s cb3) e env).err = none ∧
        ∃ rest,
          (Trigger sem (On (On (On m s cb) s cb2) s cb3) e env).calls.map
              (fun i => (i.cb, i.arg))
            = (callbacksFor m s ++ [cb, cb2, cb3]).map (fun c => (c, e)) ++ rest ∧
          rest.length ≤ 1) := by
  refine ⟨callbacksFor_On_self m s cb, fun s' h => callbacksFor_On_of_ne m s s' cb h, ?_⟩
  intro cb2 cb3 Env sem e tr env hreg hd
  have hreg3 : RegisteredAs (On (On (On m s cb) s cb2) s cb3) e tr := hreg
  have hd3 : Sends tr (State (On (On (On m s cb) s cb2) s cb3)) s := hd
  have h1 : (On (On (On m s cb) s cb2) s cb3).events.get? e = some tr :=
    (GoMap.get?_eq_some_iff _ _ _).mpr hreg3
  have h2 : tr.get? (On (On (On m s cb) s cb2) s cb3).state = some s :=
    (GoMap.get?_eq_some_iff _ _ _).mpr hd3
  refine ⟨by rw [Trigger_of_get sem _ e s tr env h1 h2], ?_⟩
  obtain ⟨rest, hrest, hlen⟩ := Trigger_calls_prefix sem _ e s tr env hreg3 hd3
  refine ⟨rest, ?_, hlen⟩
  rw [hrest, callbacksFor_On_self, callbacksFor_On_self, callbacksFor_On_self]
  simp

/-- C16 on the test `TestMachine_On`: with the callbacks 1, 2 and 3
registered on "ignored" in that order, `Trigger("ignore")` succeeds and
invokes 1, 2 and 3 in that order. -/
theorem On_appends_witness :
    callbacksFor tripled "ignored" = [⟨1⟩, ⟨2⟩, ⟨3⟩] ∧
    (Trigger idle tripled "ignore" ()).err = none ∧
    (Trigger idle tripled "ignore" ()).calls.map (fun i => i.cb) = [⟨1⟩, ⟨2⟩, ⟨3⟩] :=
  ⟨by decide,
   ((On_appends newMachine "ignored" ⟨1⟩).2.2 ⟨2⟩ ⟨3⟩ Unit idle "ignore"
      (GoMap.ofList [("pending", "ignored")]) () (by decide) (by decide)).1,
   by decide⟩

/-- C17 as stated fails in two ways.  When the callback passed to the first
`OnAny` is also registered with `On` for the destination, a later successful
`Trigger` invokes it (callback 1 below).  When a callback registered for the
destination calls `m.OnAny` itself (callback 1 below installs callback 3), a
later successful `Trigger` invokes the callback of the first `OnAny` call
(3) and never that of the second (2). -/
theorem OnAny_replaces_counterexample :
    ((Trigger idle aliased "confirm" ()).err = none ∧
      (Trigger idle aliased "confirm" ()).calls.map (fun i => i.cb) = [⟨1⟩, ⟨2⟩] ∧
      (⟨1⟩ : Callback) ∈ (Trigger idle aliased "confirm" ()).calls.map (fun i => i.cb)) ∧
    ((Trigger swapsAny replaced "confirm" ()).err = none ∧
      (Trigger swapsAny replaced "confirm" ()).calls.map (fun i => i.cb) = [⟨1⟩, ⟨3⟩] ∧
      (⟨3⟩ : Callback) ∈ (Trigger swapsAny replaced "confirm" ()).calls.map (fun i => i.cb) ∧
      ((Trigger swapsAny replaced "confirm" ()).calls.map (fun i => i.cb)).count ⟨2⟩ ≠ 1) := by
  decide

/-- C17, amended: `OnAny(a)` followed by `OnAny(b)` leaves the machine as
`OnAny(b)` alone does, with `b` the one catch-all callback kept.  A later
successful `Trigger` with destination `d`, when the callbacks registered with
`On` for `d` do not themselves replace the catch-all callback, invokes those
callbacks and then `b`; so it invokes `b` exactly once unless `b` is also
registered for `d`, and never `a` unless `a` is `b` or is also registered
for `d`. -/
theorem OnAny_replaces (m : Machine) (a b : Callback) :
    OnAny (OnAny m (some a)) (some b) = OnAny m (some b) ∧
    (OnAny (OnAny m (some a)) (some b)).callbackAny = some b ∧
    (∀ (Env : Type) (sem : Behaviour Env) (e d : String) (tr : Transitions) (env : Env),
      RegisteredAs m e tr → Sends tr (State m) d →
      (∀ c ∈ callbacksFor m d, Keeps sem Machine.callbackAny c) →
        (Trigger sem (OnAny (OnAny m (some a)) (some b)) e env).calls.map
            (fun i => (i.cb, i.arg))
          = (callbacksFor m d).map (fun c => (c, e)) ++ [(b, e)] ∧
        (b ∉ callbacksFor m d →
          ((Trigger sem (OnAny (OnAny m (some a)) (some b)) e env).calls.map
            (fun i => i.cb)).count b = 1) ∧
        (a ≠ b → a ∉ callbacksFor m d →
          a ∉ (Trigger sem (OnAny (OnAny m (some a)) (some b)) e env).calls.map
            (fun i => i.cb))) := by
  refine ⟨rfl, rfl, ?_⟩
  intro Env sem e d tr env hreg hd hkeep
  have hcalls : (Trigger sem (OnAny (OnAny m (some a)) (some b)) e env).calls.map
      (fun i => (i.cb, i.arg)) = (callbacksFor m d).map (fun c => (c, e)) ++ [(b, e)] :=
    Trigger_calls_of_keeps sem (OnAny (OnAny m (some a)) (some b)) e d tr env hreg hd hkeep
  have hcbs : (Trigger sem (OnAny (OnAny m (some a)) (some b)) e env).calls.map
      (fun i => i.cb) = callbacksFor m d ++ [b] := by
    have := congrArg (List.map Prod.fst) hcalls
    simpa [List.map_map, Function.comp_def] using this
  refine ⟨hcalls, ?_, ?_⟩
  · intro hb
    rw [hcbs, List.count_append, List.count_eq_zero_of_not_mem hb]
    simp
  · intro hab ha hmem
    rw [hcbs, List.mem_append, List.mem_singleton] at hmem
    rcases hmem with h | h
    · exact ha h
    · exact hab h

/-- C17, amended, on the machine of the test suite: after `OnAny` with the
callback 1 and then with the callback 2, `Trigger("confirm")` invokes 2 once
and 1 not at all. -/
theorem OnAny_replaces_witness :
    (Trigger idle (OnAny (OnAny newMachine (some ⟨1⟩)) (some ⟨2⟩)) "confirm" ()).calls.map
        (fun i => (i.cb, i.arg)) = [(⟨2⟩, "confirm")] ∧
    (⟨1⟩ : Callback) ∉
      (Trigger idle (OnAny (OnAny newMachine (some ⟨1⟩)) (some ⟨2⟩)) "confirm" ()).calls.map
        (fun i => i.cb) :=
  have h := (OnAny_replaces newMachine ⟨1⟩ ⟨2⟩).2.2 Unit idle "confirm" "confirmed"
    (GoMap.ofList [("pending", "confirmed")]) () (by decide) (by decide)
    (fun _ _ _ _ _ => rfl)
  ⟨h.1, h.2.2 (by decide) (by decide)⟩

/-- C18: after any finite sequence of `When`, `On`, `OnAny` and `Trigger`
calls on `New(s0)`, with callbacks that do not mutate the machine, `State()`
is `s0` or the destination of an earlier `Trigger` call that returned nil:
the mapping of its event sent the state current at that call to the present
state, and the event is still registered with that mapping. -/
theorem State_is_initial_or_destination {Env : Type} (sem : Behaviour Env)
    (hsem : ∀ c, Inert sem c) (s0 : String) (env : Env) (ops : List Op) :
    State (performAll sem (New s0, env) ops).1 = s0 ∨
      ∃ pre e post tr, ops = pre ++ Op.Trigger e :: post ∧
        (Trigger sem (performAll sem (New s0, env) pre).1 e
          (performAll sem (New s0, env) pre).2).err = none ∧
        RegisteredAs (performAll sem (New s0, env) pre).1 e tr ∧
        Sends tr (State (performAll sem (New s0, env) pre).1)
          (State (performAll sem (New s0, env) ops).1) ∧
        RegisteredAs (performAll sem (New s0, env) ops).1 e tr :=
  State_performAll sem hsem (New s0, env) ops

/-- C18 on the calls of the test suite followed by `Trigger("confirm")`: the
state is "confirmed", which is not the initial state and is the destination
of that call. -/
theorem State_is_initial_or_destination_witness :
    State (performAll idle (New "pending", ()) scenarioOps).1 = "confirmed" ∧
    (State (performAll idle (New "pending", ()) scenarioOps).1 = "pending" ∨
      ∃ pre e post tr, scenarioOps = pre ++ Op.Trigger e :: post ∧
        (Trigger idle (performAll idle (New "pending", ()) pre).1 e
          (performAll idle (New "pending", ()) pre).2).err = none ∧
        RegisteredAs (performAll idle (New "pending", ()) pre).1 e tr ∧
        Sends tr (State (performAll idle (New "pending", ()) pre).1)
          (State (performAll idle (New "pending", ()) scenarioOps).1) ∧
        RegisteredAs (performAll idle (New "pending", ()) scenarioOps).1 e tr) :=
  ⟨by decide,
   State_is_initial_or_destination idle (fun _ _ _ _ => rfl) "pending" () scenarioOps⟩

/-- C19: `Trigger(e)` returns nil exactly when `e` is an element of
`TriggerableEvents()` taken on the machine right before the call. -/
theorem Trigger_succeeds_iff_triggerable {Env : Type} (sem : Behaviour Env) (m : Machine)
    (e : String) (env : Env) :
    (Trigger sem m e env).err = none ↔ e ∈ TriggerableEvents m := by
  rw [mem_TriggerableEvents_iff]
  cases h1 : m.events.get? e with
  | none =>
    have hn : ¬ Registered m e := (GoMap.get?_eq_none_iff _ _).mp h1
    rw [Trigger_of_unregistered sem m e env h1]
    constructor
    · intro h; cases h
    · rintro ⟨tr, htr, _⟩
      exact absurd ((GoMap.mem_keys_iff _ _).mpr ⟨tr, htr⟩) hn
  | some tr =>
    have hr : RegisteredAs m e tr := (GoMap.get?_eq_some_iff _ _ _).mp h1
    cases h2 : tr.get? m.state with
    | none =>
      rw [Trigger_of_no_source sem m e tr env h1 h2]
      constructor
      · intro h; cases h
      · rintro ⟨tr', htr', hsrc⟩
        have e1 : m.events.get? e = some tr' := (GoMap.get?_eq_some_iff _ _ _).mpr htr'
        rw [h1] at e1
        cases e1
        exact absurd hsrc ((GoMap.get?_eq_none_iff _ _).mp h2)
    | some d =>
      rw [Trigger_of_get sem m e d tr env h1 h2]
      constructor
      · intro _
        exact ⟨tr, hr, (GoMap.mem_keys_iff _ _).mpr ⟨d, (GoMap.get?_eq_some_iff _ _ _).mp h2⟩⟩
      · intro _
        rfl

/-- C20: `When`, `On` and `OnAny` leave `State()` as it was; `Trigger` (with
callbacks that do not mutate the machine), `On` and `OnAny` leave the
registry as it was; `When` and `Trigger` (with such callbacks) leave the
per-state callback lists and the catch-all callback as they were. -/
theorem operations_frame (m : Machine) :
    ((∀ e t, State (When m e t).2 = State m) ∧
      (∀ s fn, State (On m s fn) = State m) ∧
      (∀ fn, State (OnAny m fn) = State m)) ∧
    ((∀ (Env : Type) (sem : Behaviour Env), (∀ c, Inert sem c) →
        ∀ (e : String) (env : Env), (Trigger sem m e env).machine.events = m.events) ∧
      (∀ s fn, (On m s fn).events = m.events) ∧
      (∀ fn, (OnAny m fn).events = m.events)) ∧
    ((∀ e t, (When m e t).2.callbacks = m.callbacks ∧
        (When m e t).2.callbackAny = m.callbackAny) ∧
      (∀ (Env : Type) (sem : Behaviour Env), (∀ c, Inert sem c) →
        ∀ (e : String) (env : Env),
          (Trigger sem m e env).machine.callbacks = m.callbacks ∧
          (Trigger sem m e env).machine.callbackAny = m.callbackAny)) := by
  refine ⟨⟨State_When m, fun _ _ => rfl, fun _ => rfl⟩, ⟨?_, fun _ _ => rfl, fun _ => rfl⟩,
    ⟨callbacks_When m, ?_⟩⟩
  · intro Env sem hsem e env
    exact Trigger_keeps sem Machine.events (fun _ _ => rfl)
      (fun c => Keeps_of_Inert sem _ c (hsem c)) m e env
  · intro Env sem hsem e env
    exact ⟨Trigger_keeps sem Machine.callbacks (fun _ _ => rfl)
        (fun c => Keeps_of_Inert sem _ c (hsem c)) m e env,
      Trigger_keeps sem Machine.callbackAny (fun _ _ => rfl)
        (fun c => Keeps_of_Inert sem _ c (hsem c)) m e env⟩

/-- C20 on the machine of the test suite with a callback on "pending" and a
catch-all callback: `Trigger("confirm")` moves the state to "confirmed" and
leaves the registry, the callback lists and the catch-all callback alone. -/
theorem operations_frame_witness :
    State (Trigger idle watched "confirm" ()).machine = "confirmed" ∧
    (Trigger idle watched "confirm" ()).machine.events = watched.events ∧
    (Trigger idle watched "confirm" ()).machine.callbacks = watched.callbacks ∧
    (Trigger idle watched "confirm" ()).machine.callbackAny = watched.callbackAny :=
  ⟨by decide,
   (operations_frame watched).2.1.1 Unit idle (fun _ _ _ _ => rfl) "confirm" (),
   ((operations_frame watched).2.2.2 Unit idle (fun _ _ _ _ => rfl) "confirm" ()).1,
   ((operations_frame watched).2.2.2 Unit idle (fun _ _ _ _ => rfl) "confirm" ()).2⟩

end mm
